import Mathlib

/-!
Verification development for the `subpixal` sub-pixel cross-correlation
image-alignment pipeline.  The repository ships only a usage notebook; the
alignment engine itself (`align_images`, `SExImageCatalog` filtering, the
cross-correlation localizer and the sigma-clipped transformation fitter) is
specified in `spec.md`.  All definitions below are therefore modelled from
the spec: pure functions over exact rational arithmetic, with floating point
replaced by `ℚ` and numpy arrays by lists.
-/

/-! ## Source catalog engine (spec §4.2)

Modelled from the spec: the `SExImageCatalog` source record and the
declarative filter/selection pipeline (`select(sources, filters)`), which are
not part of the sources in this repository (the notebook only calls
`append_filters`).  A source carries the fields the notebook filters on. -/

/-- Catalog source record: flux, position signal-to-noise, full-width at half
maximum, and stellarity score (spec §3 Data Model, "Source"). -/
structure Source where
  flux : ℚ
  pos_snr : ℚ
  fwhm : ℚ
  stellarity : ℚ
deriving DecidableEq, Repr

/-- Fields a catalog filter may refer to. -/
inductive SField
  | flux
  | pos_snr
  | fwhm
  | stellarity
deriving DecidableEq, Repr

/-- Field accessor table (spec §9: fixed Source field accessor table). -/
def SField.get : SField → Source → ℚ
  | .flux, s => s.flux
  | .pos_snr, s => s.pos_snr
  | .fwhm, s => s.fwhm
  | .stellarity, s => s.stellarity

/-- Comparators available in a range predicate (spec §4.2). -/
inductive Cmp
  | gt
  | lt
  | ge
  | le
  | eq
deriving DecidableEq, Repr

/-- Evaluate a comparator. -/
def Cmp.eval : Cmp → ℚ → ℚ → Bool
  | .gt, a, b => decide (a > b)
  | .lt, a, b => decide (a < b)
  | .ge, a, b => decide (a ≥ b)
  | .le, a, b => decide (a ≤ b)
  | .eq, a, b => decide (a = b)

/-- A catalog filter: either a range predicate `(field, comparator, value)` or
a top-K selector `(field, highest?, K)` (spec §4.2). -/
inductive CatFilter
  | range (f : SField) (c : Cmp) (v : ℚ)
  | topk (f : SField) (highest : Bool) (k : Nat)
deriving DecidableEq, Repr

/-- Stable insertion used by the top-K selector's ranking sort: `bef y x = true`
means `y` strictly precedes `x` in the ranking, so `x` is inserted after every
earlier element that strictly precedes it and before the rest (equal-rank
elements keep their original relative order). -/
def insStable (bef : Source → Source → Bool) (x : Source) : List Source → List Source
  | [] => [x]
  | y :: t => if bef y x then y :: insStable bef x t else x :: y :: t

/-- Stable insertion sort by the given strict precedence predicate. -/
def sortStable (bef : Source → Source → Bool) : List Source → List Source
  | [] => []
  | x :: t => insStable bef x (sortStable bef t)

/-- Apply one filter to the current surviving set: a range predicate keeps the
sources satisfying the comparison; a top-K selector re-ranks the survivors by
the field (highest or lowest first, stable) and truncates to `k`
(spec §4.2). -/
def applyFilter (cur : List Source) : CatFilter → List Source
  | .range f c v => cur.filter (fun s => c.eval (f.get s) v)
  | .topk f highest k =>
      (sortStable
        (fun y x => if highest then decide (f.get y > f.get x)
                    else decide (f.get y < f.get x)) cur).take k

/-- `select(sources, filters)`: filters compose by sequential intersection,
each filter narrowing (or re-ranking) the current surviving set (spec §4.2). -/
def select (sources : List Source) (filters : List CatFilter) : List Source :=
  filters.foldl applyFilter sources

/-! ## Cross-correlation localizer (spec §4.3)

Modelled from the spec: `localize(cutout_a, cutout_b)` computes the direct 2D
cross-correlation surface of two identically shaped cutouts, finds its
discrete maximum, and reports a sub-pixel shift plus a validity flag.  Pixel
data is a square list-of-rows matrix of rationals. -/

/-- A cutout: a fixed-size square sub-array plus the fractional position of
the nominal source within it (spec §3 Data Model, "Cutout"). -/
structure Cutout where
  data : List (List ℚ)
  cutout_src_pos : ℚ × ℚ
deriving DecidableEq, Repr

/-- Pixel lookup in a list-of-rows matrix; out-of-range reads as 0 (direct,
non-wrapping correlation support). -/
def pixAt (m : List (List ℚ)) (i j : Int) : ℚ :=
  if 0 ≤ i ∧ 0 ≤ j then ((m.getD i.toNat []).getD j.toNat 0) else 0

/-- Direct 2D cross-correlation surface of two `n × n` cutouts.  Entry
`(u, v)` holds the correlation at integer displacement `(u - c, v - c)` where
`c = (n - 1) / 2` is the center; the surface is `n × n` and displacements past
the cutout border fall off the support (no wrap-around). -/
def crossCorr (a b : Cutout) : List (List ℚ) :=
  (List.range a.data.length).map (fun (u : Nat) =>
    (List.range a.data.length).map (fun (v : Nat) =>
      ((List.range a.data.length).map (fun (x : Nat) =>
        ((List.range a.data.length).map (fun (y : Nat) =>
          pixAt a.data (x : Int) (y : Int) *
            pixAt b.data ((x : Int) + (u : Int) - (((a.data.length : Int) - 1) / 2))
              ((y : Int) + (v : Int) - (((a.data.length : Int) - 1) / 2)))).sum)).sum))

/-- Position of the discrete maximum of a surface, scanning in row-major
order and keeping the first occurrence of the maximum. -/
def ccPeak (cc : List (List ℚ)) : Nat × Nat :=
  let n := cc.length
  (((List.range n).flatMap (fun i => (List.range n).map (fun j => (i, j)))).foldl
    (fun p q => if pixAt cc (q.1 : Int) (q.2 : Int) > pixAt cc (p.1 : Int) (p.2 : Int)
                then q else p) (0, 0))

/-- Is a grid position on the border of an `n × n` surface? -/
def onBorder (n : Nat) (p : Nat × Nat) : Bool :=
  decide (p.1 = 0) || decide (p.1 = n - 1) || decide (p.2 = 0) || decide (p.2 = n - 1)

/-- Is the surface value at `p` a strict local maximum (strictly larger than
all 8 neighbours)? -/
def strictLocalMax (cc : List (List ℚ)) (p : Nat × Nat) : Bool :=
  ([(-1, -1), (-1, 0), (-1, 1), (0, -1), (0, 1), (1, -1), (1, 0), (1, 1)] :
      List (Int × Int)).all
    (fun d => decide (pixAt cc ((p.1 : Int) + d.1) ((p.2 : Int) + d.2) <
                      pixAt cc (p.1 : Int) (p.2 : Int)))

/-- Result of correlation-peak localization (spec §3, "CorrelationResult"):
sub-pixel shift vector, the discrete peak position and value, and a validity
flag. -/
structure CorrelationResult where
  shift : ℚ × ℚ
  ipeak : Nat × Nat
  peak : ℚ
  valid : Bool
deriving DecidableEq, Repr

/-- `localize(cutout_a, cutout_b)` (spec §4.3): compute the cross-correlation
surface, locate its discrete maximum, flag the result invalid when the peak
lies on the cutout border or is not a strict local maximum, and report the
shift of `b`'s source relative to `a`'s, accounting for each cutout's own
`cutout_src_pos` offset.  (The spec leaves the sub-pixel refinement method
open — §9 — so the reported shift carries the discrete peak displacement plus
the fractional source-position offsets; the validity flag depends only on the
discrete peak.) -/
def localize (a b : Cutout) : CorrelationResult :=
  let cc := crossCorr a b
  let n := cc.length
  let c : Int := ((n : Int) - 1) / 2
  let p := ccPeak cc
  { shift := (((p.1 : Int) - c : Int) + (b.cutout_src_pos.1 - a.cutout_src_pos.1),
              ((p.2 : Int) - c : Int) + (b.cutout_src_pos.2 - a.cutout_src_pos.2)),
    ipeak := p,
    peak := pixAt cc (p.1 : Int) (p.2 : Int),
    valid := !onBorder n p && strictLocalMax cc p }

/-! ## Transformation fitter (spec §4.4)

Modelled from the spec: `fit(pairs, fitgeom, nclip, sigma)` performs a
least-squares fit of a 2D geometric transform of the requested family to
(reference-position, measured-position) pairs, then iteratively sigma-clips
outliers.  Exact rational arithmetic replaces floating point; residual
magnitudes are carried squared (the RMS is carried as the mean squared
residual `rms2 = RMS²`), which avoids irrational square roots and preserves
every ordering the spec's properties speak about.  Sigma-clipping compares a
squared residual `t` against the threshold `mu + sigma·std` of the squared
residual distribution, expressed by the square-free equivalent
`t ≤ mu ∨ (t - mu)² ≤ sigma²·var`. -/

/-- A fitting pair: reference source position `(x, y)` and measured position
`(xp, yp)` (reference position displaced by the correlation shift). -/
structure PtPair where
  x : ℚ
  y : ℚ
  xp : ℚ
  yp : ℚ
deriving DecidableEq, Repr

/-- A 2D affine transform `x' = a·x + b·y + c`, `y' = d·x + e·y + f`; the
common value representation of every fitted transform family. -/
structure Affine2 where
  a : ℚ
  b : ℚ
  c : ℚ
  d : ℚ
  e : ℚ
  f : ℚ
deriving DecidableEq, Repr

/-- The identity transform (initial per-exposure transform, spec §3). -/
def Affine2.id : Affine2 := ⟨1, 0, 0, 0, 1, 0⟩

/-- Composition `(t₁.comp t₂) p = t₁ (t₂ p)`: used to fold a newly fitted
transform into an exposure's prior transform (spec §4.5). -/
def Affine2.comp (t₁ t₂ : Affine2) : Affine2 :=
  ⟨t₁.a * t₂.a + t₁.b * t₂.d, t₁.a * t₂.b + t₁.b * t₂.e, t₁.a * t₂.c + t₁.b * t₂.f + t₁.c,
   t₁.d * t₂.a + t₁.e * t₂.d, t₁.d * t₂.b + t₁.e * t₂.e, t₁.d * t₂.c + t₁.e * t₂.f + t₁.f⟩

/-- Transformation families (spec §4.4): shift-only, shift+rotation+scale
(`rscale`), and full 6-parameter affine (`general`). -/
inductive FitGeom
  | shift
  | rscale
  | general
deriving DecidableEq, Repr

/-- Minimum number of independent source pairs per family (spec §4.4). -/
def FitGeom.minPairs : FitGeom → Nat
  | .shift => 1
  | .rscale => 2
  | .general => 3

/-- Squared positional residual of an affine transform on one pair. -/
def resid2A (t : Affine2) (p : PtPair) : ℚ :=
  (t.a * p.x + t.b * p.y + t.c - p.xp) ^ 2 + (t.d * p.x + t.e * p.y + t.f - p.yp) ^ 2

/-- Mean of a rational list (0 for the empty list, per `ℚ`'s `x / 0 = 0`). -/
def meanQ (l : List ℚ) : ℚ := l.sum / l.length

/-- Mean squared residual of a transform over indexed pairs. -/
def meanResid2 (t : Affine2) (l : List (Nat × PtPair)) : ℚ :=
  meanQ (l.map (fun ip => resid2A t ip.2))

/-- All three families are linear models in a common 6-slot parameter vector
`θ`; each family reads only its own slots.  Embed a parameter vector into the
affine-transform value of the family. -/
def famToAffine : FitGeom → (Fin 6 → ℚ) → Affine2
  | .shift, θ => ⟨1, 0, θ 2, 0, 1, θ 5⟩
  | .rscale, θ => ⟨θ 0, -θ 1, θ 2, θ 1, θ 0, θ 5⟩
  | .general, θ => ⟨θ 0, θ 1, θ 2, θ 3, θ 4, θ 5⟩

/-- A 6-slot parameter/feature vector given by its components. -/
def vec6 (a b c d e f : ℚ) : Fin 6 → ℚ := fun m =>
  match m with
  | ⟨0, _⟩ => a
  | ⟨1, _⟩ => b
  | ⟨2, _⟩ => c
  | ⟨3, _⟩ => d
  | ⟨4, _⟩ => e
  | ⟨5, _⟩ => f

/-- Feature row of the x-equation of a pair (residual in x is
`⟨features, θ⟩ - target`). -/
def famUx : FitGeom → PtPair → Fin 6 → ℚ
  | .shift, _ => vec6 0 0 1 0 0 0
  | .rscale, p => vec6 p.x (-p.y) 1 0 0 0
  | .general, p => vec6 p.x p.y 1 0 0 0

/-- Feature row of the y-equation of a pair. -/
def famUy : FitGeom → PtPair → Fin 6 → ℚ
  | .shift, _ => vec6 0 0 0 0 0 1
  | .rscale, p => vec6 p.y p.x 0 0 0 1
  | .general, p => vec6 0 0 0 p.x p.y 1

/-- Target of the x-equation of a pair. -/
def famTx : FitGeom → PtPair → ℚ
  | .shift, p => p.xp - p.x
  | .rscale, p => p.xp
  | .general, p => p.xp

/-- Target of the y-equation of a pair. -/
def famTy : FitGeom → PtPair → ℚ
  | .shift, p => p.yp - p.y
  | .rscale, p => p.yp
  | .general, p => p.yp

/-- Dot product on 6-slot vectors. -/
def dot6 (u θ : Fin 6 → ℚ) : ℚ := ∑ m : Fin 6, u m * θ m

/-- Least-squares solution for the shift family: the mean displacement. -/
def shiftSolve (ps : List PtPair) : Option (Fin 6 → ℚ) :=
  if ps.length = 0 then none
  else
    some (vec6 0 0 ((ps.map (fun p => p.xp - p.x)).sum / (ps.length : ℚ)) 0 0
           ((ps.map (fun p => p.yp - p.y)).sum / (ps.length : ℚ)))

/-- Atomic sum `Σ x` over a pair list. -/
def sX (ps : List PtPair) : ℚ := (ps.map (fun p => p.x)).sum

/-- Atomic sum `Σ y`. -/
def sY (ps : List PtPair) : ℚ := (ps.map (fun p => p.y)).sum

/-- Atomic sum `Σ x·x`. -/
def sXX (ps : List PtPair) : ℚ := (ps.map (fun p => p.x * p.x)).sum

/-- Atomic sum `Σ x·y`. -/
def sXY (ps : List PtPair) : ℚ := (ps.map (fun p => p.x * p.y)).sum

/-- Atomic sum `Σ y·y`. -/
def sYY (ps : List PtPair) : ℚ := (ps.map (fun p => p.y * p.y)).sum

/-- Atomic sum `Σ x'`. -/
def sXP (ps : List PtPair) : ℚ := (ps.map (fun p => p.xp)).sum

/-- Atomic sum `Σ y'`. -/
def sYP (ps : List PtPair) : ℚ := (ps.map (fun p => p.yp)).sum

/-- Atomic sum `Σ x·x'`. -/
def sXXP (ps : List PtPair) : ℚ := (ps.map (fun p => p.x * p.xp)).sum

/-- Atomic sum `Σ y·x'`. -/
def sYXP (ps : List PtPair) : ℚ := (ps.map (fun p => p.y * p.xp)).sum

/-- Atomic sum `Σ x·y'`. -/
def sXYP (ps : List PtPair) : ℚ := (ps.map (fun p => p.x * p.yp)).sum

/-- Atomic sum `Σ y·y'`. -/
def sYYP (ps : List PtPair) : ℚ := (ps.map (fun p => p.y * p.yp)).sum

/-- Determinant (up to the factor `n`) of the rscale normal system. -/
def rscaleDD (ps : List PtPair) : ℚ :=
  (ps.length : ℚ) * (sXX ps + sYY ps) - sX ps * sX ps - sY ps * sY ps

/-- Closed-form rscale rotation-scale cosine-like coefficient `a`. -/
def rscaleA (ps : List PtPair) : ℚ :=
  ((ps.length : ℚ) * (sXXP ps + sYYP ps) - sX ps * sXP ps - sY ps * sYP ps) / rscaleDD ps

/-- Closed-form rscale rotation-scale sine-like coefficient `b`. -/
def rscaleB (ps : List PtPair) : ℚ :=
  ((ps.length : ℚ) * (sXYP ps - sYXP ps) + sY ps * sXP ps - sX ps * sYP ps) / rscaleDD ps

/-- Closed-form rscale x-translation. -/
def rscaleTX (ps : List PtPair) : ℚ :=
  (sXP ps - sX ps * rscaleA ps + sY ps * rscaleB ps) / (ps.length : ℚ)

/-- Closed-form rscale y-translation. -/
def rscaleTY (ps : List PtPair) : ℚ :=
  (sYP ps - sY ps * rscaleA ps - sX ps * rscaleB ps) / (ps.length : ℚ)

/-- Least-squares solution for the rscale family `x' = a·x - b·y + tx`,
`y' = b·x + a·y + ty`, by the closed-form solution of its normal equations;
`none` when the normal system is singular. -/
def rscaleSolve (ps : List PtPair) : Option (Fin 6 → ℚ) :=
  if (ps.length : ℚ) = 0 ∨ rscaleDD ps = 0 then none
  else some (vec6 (rscaleA ps) (rscaleB ps) (rscaleTX ps) 0 0 (rscaleTY ps))

/-- Determinant of the shared normal matrix
`[[Σx², Σxy, Σx], [Σxy, Σy², Σy], [Σx, Σy, n]]` of the general family. -/
def genDet (ps : List PtPair) : ℚ :=
  sXX ps * (sYY ps * (ps.length : ℚ) - sY ps * sY ps)
    - sXY ps * (sXY ps * (ps.length : ℚ) - sX ps * sY ps)
    + sX ps * (sXY ps * sY ps - sYY ps * sX ps)

/-- Cramer solution, first unknown, of the general normal system with
right-hand side `(b0, b1, b2)`. -/
def genSolA (ps : List PtPair) (b0 b1 b2 : ℚ) : ℚ :=
  (b0 * (sYY ps * (ps.length : ℚ) - sY ps * sY ps)
    - sXY ps * (b1 * (ps.length : ℚ) - sY ps * b2)
    + sX ps * (b1 * sY ps - sYY ps * b2)) / genDet ps

/-- Cramer solution, second unknown. -/
def genSolB (ps : List PtPair) (b0 b1 b2 : ℚ) : ℚ :=
  (sXX ps * (b1 * (ps.length : ℚ) - sY ps * b2)
    - b0 * (sXY ps * (ps.length : ℚ) - sX ps * sY ps)
    + sX ps * (sXY ps * b2 - b1 * sX ps)) / genDet ps

/-- Cramer solution, third unknown. -/
def genSolC (ps : List PtPair) (b0 b1 b2 : ℚ) : ℚ :=
  (sXX ps * (sYY ps * b2 - b1 * sY ps)
    - sXY ps * (sXY ps * b2 - b1 * sX ps)
    + b0 * (sXY ps * sY ps - sYY ps * sX ps)) / genDet ps

/-- Least-squares solution for the general affine family: two independent
3-unknown linear systems sharing the general normal matrix, solved by
Cramer's rule; `none` when that matrix is singular. -/
def generalSolve (ps : List PtPair) : Option (Fin 6 → ℚ) :=
  if genDet ps = 0 then none
  else some (vec6
    (genSolA ps (sXXP ps) (sYXP ps) (sXP ps))
    (genSolB ps (sXXP ps) (sYXP ps) (sXP ps))
    (genSolC ps (sXXP ps) (sYXP ps) (sXP ps))
    (genSolA ps (sXYP ps) (sYYP ps) (sYP ps))
    (genSolB ps (sXYP ps) (sYYP ps) (sYP ps))
    (genSolC ps (sXYP ps) (sYYP ps) (sYP ps)))

/-- Weighted least-squares solve of one family on a pair list (uniform
weights, as in the notebook's configuration). -/
def famSolve : FitGeom → List PtPair → Option (Fin 6 → ℚ)
  | .shift, ps => shiftSolve ps
  | .rscale, ps => rscaleSolve ps
  | .general, ps => generalSolve ps

/-- Keep predicate of one sigma-clipping round over squared residuals:
a source survives when its squared residual is within `sigma` standard
deviations above the mean of the squared-residual distribution
(`t ≤ mu + sigma·√var`, written without the square root). -/
def keepPred (mu s2v t : ℚ) : Bool := decide (t ≤ mu ∨ (t - mu) ^ 2 ≤ s2v)

/-- Variance of the squared-residual distribution of a transform over the
current retained set. -/
def clipVar (t : Affine2) (cur : List (Nat × PtPair)) : ℚ :=
  meanQ (cur.map (fun ip => (resid2A t ip.2 - meanResid2 t cur) ^ 2))

/-- One clipping round's survivor set: sources whose squared residual under
the current transform is beyond `sigma` standard deviations of the
squared-residual distribution are discarded (spec §4.4). -/
def clipSurvivors (sigma : ℚ) (t : Affine2) (cur : List (Nat × PtPair)) :
    List (Nat × PtPair) :=
  cur.filter (fun ip =>
    keepPred (meanResid2 t cur) (sigma ^ 2 * clipVar t cur) (resid2A t ip.2))

/-- State threaded through the clipping loop: retained indexed pairs, current
transform, mean squared residual recorded after each accepted round, and the
count of accepted rounds. -/
structure ClipState where
  kept : List (Nat × PtPair)
  t : Affine2
  rounds : List ℚ
  nRounds : Nat
deriving DecidableEq, Repr

/-- The sigma-clipping loop (spec §4.4): up to `nclip` rounds, each
discarding outlier sources and refitting on the survivors.  A round is
rejected — stopping at the prior round's result — when no source is newly
discarded, when the survivor count would fall below the family minimum
(spec §4.4 edge case), or when the refit on the survivors is degenerate. -/
def clipLoop (g : FitGeom) (sigma : ℚ) : Nat → List (Nat × PtPair) → Affine2 → ClipState
  | 0, cur, t => ⟨cur, t, [], 0⟩
  | nclip + 1, cur, t =>
    let keep := clipSurvivors sigma t cur
    if keep.length = cur.length then ⟨cur, t, [], 0⟩
    else if keep.length < g.minPairs then ⟨cur, t, [], 0⟩
    else
      match famSolve g (keep.map Prod.snd) with
      | none => ⟨cur, t, [], 0⟩
      | some θ =>
        let t2 := famToAffine g θ
        let r := clipLoop g sigma nclip keep t2
        ⟨r.kept, r.t, meanResid2 t2 keep :: r.rounds, r.nRounds + 1⟩

/-- Fitter failures (spec §4.4 / §7): too few source pairs for the requested
family, or a degenerate (singular) normal system. -/
inductive FitError
  | insufficientSources
  | singularMatrix
deriving DecidableEq, Repr

/-- Fit result (spec §3 Data Model, "FitResult"): fitted transform, squared
residual per retained source, retained index set and boolean retained-mask,
mean squared residual (`RMS²`), the count of clipping rounds applied, and the
mean squared residual recorded per round (initial fit included). -/
structure FitResult where
  transform : Affine2
  resid2 : List ℚ
  imgIndx : List Nat
  mask : List Bool
  rms2 : ℚ
  nClipRounds : Nat
  roundRms2 : List ℚ
deriving DecidableEq, Repr

/-- `fit(pairs, fitgeom, nclip, sigma)` (spec §4.4): hard-fails with
`InsufficientSourcesError` when fewer than the family's minimum number of
pairs is supplied; otherwise least-squares fits the family and applies up to
`nclip` sigma-clipping rounds. -/
def fit (pairs : List PtPair) (fitgeom : FitGeom) (nclip : Nat) (sigma : ℚ) :
    Except FitError FitResult :=
  if pairs.length < fitgeom.minPairs then .error .insufficientSources
  else
    match famSolve fitgeom pairs with
    | none => .error .singularMatrix
    | some θ0 =>
      let t0 := famToAffine fitgeom θ0
      let idx0 := (List.range pairs.length).zip pairs
      let st := clipLoop fitgeom sigma nclip idx0 t0
      .ok { transform := st.t,
            resid2 := st.kept.map (fun ip => resid2A st.t ip.2),
            imgIndx := st.kept.map Prod.fst,
            mask := (List.range pairs.length).map
              (fun i => decide (i ∈ st.kept.map Prod.fst)),
            rms2 := meanResid2 st.t st.kept,
            nClipRounds := st.nRounds,
            roundRms2 := meanResid2 t0 idx0 :: st.rounds }

/-! ## Alignment orchestrator (spec §4.5, notebook `align_images`)

Modelled from the spec: the iteration loop
combine → extract catalog → blot → correlate → fit → check convergence.
The image-processing phases (drizzle combination, blotting, cutout
extraction, correlation) are numerical collaborators of the loop; the loop is
modelled parametrically over an environment that supplies, per iteration, the
raw detected catalog and, per exposure, the correlation intermediates and the
resulting fitting pairs.  Every claim proved about the loop therefore holds
for every behaviour of those phases. -/

/-- An exposure as the orchestrator sees it: an identifier and the mutable
current transform, initially the identity; the transform is the only field
mutated across iterations (spec §3). -/
structure Exposure where
  id : Nat
  transform : Affine2
deriving DecidableEq, Repr

/-- Per-exposure, per-iteration intermediates delivered by the image phases:
cutouts from the CR-cleaned image, from the drizzled reference, the blotted
cutouts, the supersampled correlation surfaces (`ICC`), and the fitting pairs
assembled from the valid correlation results. -/
structure ExpoData where
  image_cutouts : List Cutout
  driz_cutouts : List Cutout
  blotted_cutouts : List Cutout
  icc : List (List (List ℚ))
  pairs : List PtPair
deriving Repr

/-- Environment abstracting the out-of-loop collaborators: the detected raw
catalog per iteration and the per-exposure image data per iteration. -/
structure AlignEnv where
  rawCatalog : Nat → List Source
  expoData : Nat → Nat → ExpoData

/-- `image_info` record of one exposure in one iteration's history
(spec §6: cutouts, blotted cutouts, correlation surfaces). -/
structure ImageInfo where
  image_cutouts : List Cutout
  driz_cutouts : List Cutout
  blotted_cutouts : List Cutout
  icc : List (List (List ℚ))
deriving Repr

/-- `fit_info` record of one exposure in one iteration's history (spec §6:
fitted transform, retained-index set, residuals), plus the flag marking an
exposure whose fit failed in this iteration (spec §4.5). -/
structure FitInfo where
  fitFailed : Bool
  transform : Affine2
  img_indx : List Nat
  resid2 : List ℚ
deriving DecidableEq, Repr

/-- Per-exposure entry of one iteration's history record. -/
structure ExpoRecord where
  image_info : ImageInfo
  fit_info : FitInfo
deriving Repr

/-- One iteration's history record: the per-exposure entries (`finfo`) and
the iteration's largest per-exposure squared shift magnitude. -/
structure IterRecord where
  finfo : List ExpoRecord
  maxShift2 : ℚ
deriving Repr

/-- Reason the orchestrator loop stopped. -/
inductive StopReason
  | converged
  | reachedNmax
  | singlePass
  | emptyCatalogStop
deriving DecidableEq, Repr

/-- Result of an alignment run: final exposures, the retained fit history,
the convergence flag, the number of iterations executed, the stop reason, and
the last iteration's largest squared shift (when one was computed). -/
structure AlignResult where
  exposures : List Exposure
  history : List IterRecord
  converged : Bool
  iterations : Nat
  stop : StopReason
  lastShift2 : Option ℚ
deriving Repr

/-- Fatal failures of an alignment run (spec §7): invalid inputs at INIT,
an empty catalog at INIT, or no usable exposure left after an iteration. -/
inductive AlignError
  | invalidInput
  | emptyCatalog
  | allExposuresFailed
deriving DecidableEq, Repr

/-- Orchestrator configuration mirroring the notebook call
`align_images(cat, driz, fitgeom, nclip, sigma, nmax, eps_shift, iterative,
history)`. -/
structure AlignConfig where
  filters : List CatFilter
  fitgeom : FitGeom
  nclip : Nat
  sigma : ℚ
  nmax : Nat
  eps_shift : ℚ
  iterative : Bool
  historyLast : Bool

/-- Squared magnitude of the translation part of a fitted transform: the
per-exposure shift magnitude the convergence check compares against
`eps_shift` (squared on both sides). -/
def fitShift2 (r : FitResult) : ℚ := r.transform.c ^ 2 + r.transform.f ^ 2

/-- Process one exposure in one iteration: fit the transform family to the
exposure's pairs; on success compose the newly fitted transform with the
prior transform, on failure keep the prior transform unchanged and flag the
exposure in the history record (spec §4.5). -/
def runExposure (cfg : AlignConfig) (d : ExpoData) (e : Exposure) :
    Exposure × ExpoRecord × Option ℚ :=
  let ii : ImageInfo := ⟨d.image_cutouts, d.driz_cutouts, d.blotted_cutouts, d.icc⟩
  match fit d.pairs cfg.fitgeom cfg.nclip cfg.sigma with
  | .ok r =>
      (⟨e.id, r.transform.comp e.transform⟩,
       ⟨ii, ⟨false, r.transform, r.imgIndx, r.resid2⟩⟩, some (fitShift2 r))
  | .error _ => (e, ⟨ii, ⟨true, e.transform, [], []⟩⟩, none)

/-- One iteration's per-exposure phase: every exposure is processed
independently; a failing exposure never aborts the others. -/
def runIteration (cfg : AlignConfig) (env : AlignEnv) (it : Nat)
    (exps : List Exposure) : List (Exposure × ExpoRecord × Option ℚ) :=
  exps.map (fun e => runExposure cfg (env.expoData it e.id) e)

/-- History retention (spec §4.5): `history='last'` keeps only the most
recent iteration's record, the full mode appends. -/
def pushHist (historyLast : Bool) (hist : List IterRecord) (rec : IterRecord) :
    List IterRecord :=
  if historyLast then [rec] else hist ++ [rec]

/-- Largest squared shift among the exposures that fitted successfully. -/
def maxShift2OfRun (results : List (Exposure × ExpoRecord × Option ℚ)) : Option ℚ :=
  (results.filterMap (fun r => r.2.2)).foldl (fun acc q =>
    match acc with
    | none => some q
    | some m => some (max m q)) none

/-- The orchestrator loop (spec §4.5): runs while iterations remain
(`fuel` counts down from `nmax`), checking the catalog, fitting every
exposure, recording history, and testing convergence: converged when the
largest per-exposure squared shift falls below `eps_shift²`; reaching the
iteration cap returns the last result flagged non-converged — never an
error.  An empty catalog is fatal at INIT (iteration 0) and ends the loop
otherwise; an iteration in which every exposure fails fitting is fatal. -/
def alignLoop (cfg : AlignConfig) (env : AlignEnv) :
    Nat → Nat → List Exposure → List IterRecord → Except AlignError AlignResult
  | 0, it, exps, hist =>
      .ok ⟨exps, hist, false, it, .reachedNmax, none⟩
  | fuel + 1, it, exps, hist =>
      if (select (env.rawCatalog it) cfg.filters).isEmpty then
        if it = 0 then .error .emptyCatalog
        else .ok ⟨exps, hist, false, it, .emptyCatalogStop, none⟩
      else
        match maxShift2OfRun (runIteration cfg env it exps) with
        | none => .error .allExposuresFailed
        | some m =>
          if m < cfg.eps_shift ^ 2 then
            .ok ⟨(runIteration cfg env it exps).map (fun r => r.1),
                 pushHist cfg.historyLast hist
                   ⟨(runIteration cfg env it exps).map (fun r => r.2.1), m⟩,
                 true, it + 1, .converged, some m⟩
          else if cfg.iterative then
            alignLoop cfg env fuel (it + 1)
              ((runIteration cfg env it exps).map (fun r => r.1))
              (pushHist cfg.historyLast hist
                ⟨(runIteration cfg env it exps).map (fun r => r.2.1), m⟩)
          else
            .ok ⟨(runIteration cfg env it exps).map (fun r => r.1),
                 pushHist cfg.historyLast hist
                   ⟨(runIteration cfg env it exps).map (fun r => r.2.1), m⟩,
                 false, it + 1, .singlePass, some m⟩

/-- `align_images` (spec §4.5, notebook cell 15): validate the inputs at
INIT (at least one exposure, a non-empty filter specification), reset every
exposure's transform to the identity, and run up to `nmax` iterations. -/
def align_images (cfg : AlignConfig) (env : AlignEnv) (exps : List Exposure) :
    Except AlignError AlignResult :=
  if exps.isEmpty ∨ cfg.filters.isEmpty then .error .invalidInput
  else alignLoop cfg env cfg.nmax 0 (exps.map (fun e => ⟨e.id, Affine2.id⟩)) []

/-! ## Concrete fixtures used by the witness theorems -/

/-- A sample catalog source. -/
def srcW : Source := ⟨30, 90, 2, 1/2⟩

/-- A faint sample source (filtered out by a flux cut at 20). -/
def srcF : Source := ⟨5, 40, 3, 1/10⟩

/-- Sample pair list for the shift family with one gross outlier. -/
def pairsW : List PtPair := [⟨0, 0, 0, 0⟩, ⟨1, 0, 1, 0⟩, ⟨2, 0, 2, 0⟩, ⟨3, 0, 12, 0⟩]

/-- Sample single-pair list carrying the shift `(1/2, 0)`. -/
def pairs1 : List PtPair := [⟨0, 0, 1/2, 0⟩]

/-- Retrieve the payload of a successful fit (defaulting on failure): lets a
witness name the concrete `FitResult` a sample call produces. -/
def fitOk (pairs : List PtPair) (g : FitGeom) (nclip : Nat) (sigma : ℚ) : FitResult :=
  (fit pairs g nclip sigma).toOption.getD
    ⟨Affine2.id, [], [], [], 0, 0, []⟩

/-- A delta-function cutout: 3 × 3, unit source at the center. -/
def cutW : Cutout := ⟨[[0, 0, 0], [0, 1, 0], [0, 0, 0]], (1, 1)⟩

/-- Sample orchestrator configuration mirroring the notebook call (shift
family, no clipping, three iterations allowed, `history='last'`). -/
def cfgW : AlignConfig :=
  ⟨[CatFilter.range .flux .gt 20], .shift, 0, 1, 3, 1, true, true⟩

/-- Sample environment: a one-source catalog every iteration and a single
fitting pair per exposure. -/
def envW : AlignEnv := ⟨fun _ => [srcW], fun _ _ => ⟨[], [], [], [], pairs1⟩⟩

/-- Environment whose detected catalog survives no filter. -/
def envEmpty : AlignEnv := ⟨fun _ => [srcF], fun _ _ => ⟨[], [], [], [], pairs1⟩⟩

/-- Sample exposure list. -/
def expsW : List Exposure := [⟨0, Affine2.id⟩]

/-- Retrieve the payload of a successful alignment run (defaulting on
failure): lets a witness name the concrete `AlignResult` a sample run
produces. -/
def alignOk (cfg : AlignConfig) (env : AlignEnv) (exps : List Exposure) : AlignResult :=
  (align_images cfg env exps).toOption.getD ⟨[], [], false, 0, .reachedNmax, none⟩

/-- Per-exposure data fixture: no imagery, the single pair of `pairs1`. -/
def dataW : ExpoData := ⟨[], [], [], [], pairs1⟩

/-- Exposure fixture at the identity transform. -/
def expW : Exposure := ⟨0, Affine2.id⟩

/-- History-record fixture. -/
def recW : IterRecord := ⟨[], 0⟩

/-- Membership of a transform value in a family: it is the embedding of some
parameter vector. -/
def famMember (g : FitGeom) (t : Affine2) : Prop := ∃ θ : Fin 6 → ℚ, t = famToAffine g θ

/-- The fit result of `fit pairsW shift 2 1` (established below): one
clipping round discards the outlier and the refit is exact. -/
def fitResW2 : FitResult :=
  ⟨⟨1, 0, 0, 0, 1, 0⟩, [0, 0, 0], [0, 1, 2], [true, true, true, false], 0, 1,
   [243/16, 0]⟩

/-- The fit result of `fit pairs1 shift 0 1` (established below). -/
def fitResW : FitResult := ⟨⟨1, 0, 1/2, 0, 1, 0⟩, [0], [0], [true], 0, 0, [0]⟩

/-- The run result of `align_images cfgW envW expsW` (established below). -/
def alignResW : AlignResult :=
  ⟨[⟨0, ⟨1, 0, 1/2, 0, 1, 0⟩⟩],
   [⟨[⟨⟨[], [], [], []⟩, ⟨false, ⟨1, 0, 1/2, 0, 1, 0⟩, [0], [0]⟩⟩], 1/4⟩],
   true, 1, .converged, some (1/4)⟩

/-! ## List-sum helper lemmas -/

/-- Sum of a pointwise sum of maps splits. -/
theorem lsum_map_add {α : Type} (l : List α) (f g : α → ℚ) :
    (l.map (fun a => f a + g a)).sum = (l.map f).sum + (l.map g).sum := by
  induction l with
  | nil => simp
  | cons a t ih => simp [ih]; ring

/-- A constant factor moves out of a mapped sum. -/
theorem lsum_map_mul_left {α : Type} (l : List α) (c : ℚ) (f : α → ℚ) :
    (l.map (fun a => c * f a)).sum = c * (l.map f).sum := by
  induction l with
  | nil => simp
  | cons a t ih => simp [ih]; ring

/-- A mapped list-sum of `Fin 6`-indexed sums commutes with the `Fin 6` sum. -/
theorem lsum_finsum_comm {α : Type} (l : List α) (f : α → Fin 6 → ℚ) :
    (l.map (fun a => ∑ m : Fin 6, f a m)).sum = ∑ m : Fin 6, (l.map (fun a => f a m)).sum := by
  induction l with
  | nil => simp
  | cons a t ih => simp [ih, Finset.sum_add_distrib]

/-- Splitting a sum over a filter and its complement. -/
theorem lsum_filter_split (l : List ℚ) (p : ℚ → Bool) :
    (l.filter p).sum + (l.filter (fun a => !p a)).sum = l.sum := by
  induction l with
  | nil => simp
  | cons a t ih =>
    by_cases hp : p a <;> simp [List.filter_cons, hp, ← ih] <;> ring

/-- Splitting a length over a filter and its complement. -/
theorem llen_filter_split {α : Type} (l : List α) (p : α → Bool) :
    (l.filter p).length + (l.filter (fun a => !p a)).length = l.length := by
  induction l with
  | nil => simp
  | cons a t ih =>
    by_cases hp : p a <;> simp [List.filter_cons, hp, ← ih] <;> omega

/-- A filter by a predicate on the image commutes with the map. -/
theorem map_filter_comm {α β : Type} (l : List α) (f : α → β) (p : β → Bool) :
    (l.filter (fun a => p (f a))).map f = (l.map f).filter p := by
  induction l with
  | nil => simp
  | cons a t ih => by_cases hp : p (f a) <;> simp [List.filter_cons, hp, ih]

/-- Sum of a constant map. -/
theorem lsum_map_const {α : Type} (l : List α) (c : ℚ) :
    (l.map (fun _ => c)).sum = (l.length : ℚ) * c := by
  induction l with
  | nil => simp
  | cons a t ih => simp [ih]; ring

/-! ## Catalog engine lemmas -/

/-- Membership after a stable insertion. -/
theorem mem_insStable {bef : Source → Source → Bool} {x a : Source} :
    ∀ {l : List Source}, x ∈ insStable bef a l → x = a ∨ x ∈ l := by
  intro l
  induction l with
  | nil => simp [insStable]
  | cons y t ih =>
    by_cases hb : bef y a
    · simp only [insStable, hb, if_true, List.mem_cons]
      rintro (rfl | h)
      · exact Or.inr (Or.inl rfl)
      · rcases ih h with h' | h'
        · exact Or.inl h'
        · exact Or.inr (Or.inr h')
    · simp [insStable, hb]

/-- The stable sort permutes: membership is preserved. -/
theorem mem_sortStable {bef : Source → Source → Bool} {x : Source} :
    ∀ {l : List Source}, x ∈ sortStable bef l → x ∈ l := by
  intro l
  induction l with
  | nil => simp [sortStable]
  | cons a t ih =>
    intro h
    rcases mem_insStable h with rfl | h'
    · exact List.mem_cons_self _ _
    · exact List.mem_cons_of_mem _ (ih h')

/-- No filter lets a source appear that was not in its input. -/
theorem applyFilter_narrows {S : List Source} {f : CatFilter} {x : Source}
    (h : x ∈ applyFilter S f) : x ∈ S := by
  cases f with
  | range fl c v => exact (List.mem_filter.mp h).1
  | topk fl hi k => exact mem_sortStable (List.mem_of_mem_take h)

/-- Every filter maps the empty survivor set to the empty set. -/
theorem applyFilter_nil (f : CatFilter) : applyFilter [] f = [] := by
  cases f <;> simp [applyFilter, sortStable]

/-- C6: for any source list `S` and filter sequences `F1`, `F2`,
`select(select(S, F1), F2)` equals `select(S, F1 ++ F2)` — the concatenated
sequence applied in one pass yields the same surviving list (same sources,
same order) as the two sequences applied in succession; moreover every filter
narrows the surviving set (no new source appears), and a top-K selector
truncates the current survivors to at most `K` entries. -/
theorem c6_select_filter_composition :
    (∀ (S : List Source) (F1 F2 : List CatFilter),
      select (select S F1) F2 = select S (F1 ++ F2))
    ∧ (∀ (S : List Source) (f : CatFilter) (x : Source), x ∈ applyFilter S f → x ∈ S)
    ∧ (∀ (S : List Source) (fl : SField) (hi : Bool) (k : Nat),
        (applyFilter S (.topk fl hi k)).length ≤ k) := by
  refine ⟨fun S F1 F2 => ?_, fun S f x h => applyFilter_narrows h, fun S fl hi k => ?_⟩
  · simp [select, List.foldl_append]
  · simp [applyFilter]

/-- Witness for C6 at a concrete instance: composing a flux cut with a top-1
selector in one pass agrees with successive application, and the flux cut
only keeps sources of its input. -/
theorem c6_select_filter_composition_witness :
    select (select [srcW, srcF] [CatFilter.range .flux .gt 20])
        [CatFilter.topk .pos_snr true 1]
      = select [srcW, srcF]
          ([CatFilter.range .flux .gt 20] ++ [CatFilter.topk .pos_snr true 1])
    ∧ srcW ∈ [srcW, srcF] :=
  ⟨c6_select_filter_composition.1 [srcW, srcF] [CatFilter.range .flux .gt 20]
      [CatFilter.topk .pos_snr true 1],
   c6_select_filter_composition.2.1 [srcW, srcF] (CatFilter.range .flux .gt 20) srcW
      (by rw [show applyFilter [srcW, srcF] (CatFilter.range .flux .gt 20) = [srcW]
            from by norm_num [applyFilter, srcW, srcF, Cmp.eval, SField.get]]
          exact List.mem_cons_self _ _)⟩

/-- The selection step never produces `emptyCatalog` except at INIT: the loop
reports it only when iteration 0's filtered catalog is empty. -/
theorem alignLoop_ne_emptyCatalog (cfg : AlignConfig) (env : AlignEnv) :
    ∀ (fuel it : Nat) (exps : List Exposure) (hist : List IterRecord),
      (it = 0 → (select (env.rawCatalog 0) cfg.filters).isEmpty = false) →
      alignLoop cfg env fuel it exps hist ≠ .error .emptyCatalog := by
  intro fuel
  induction fuel with
  | zero => intro it exps hist _ h; simp [alignLoop] at h
  | succ n ih =>
    intro it exps hist hcat h
    rw [alignLoop] at h
    by_cases he : (select (env.rawCatalog it) cfg.filters).isEmpty
    · rcases Nat.eq_zero_or_pos it with rfl | hpos
      · rw [hcat rfl] at he; exact absurd he (by simp)
      · have : it ≠ 0 := Nat.pos_iff_ne_zero.mp hpos
        simp [he, this] at h
    · simp only [he, if_false] at h
      rcases hm : maxShift2OfRun (runIteration cfg env it exps) with _ | m
      · rw [hm] at h; exact absurd h (by simp)
      · rw [hm] at h
        by_cases hc : m < cfg.eps_shift ^ 2
        · simp [hc] at h
        · by_cases hi : cfg.iterative
          · simp only [hc, if_false, hi, if_true] at h
            exact ih (it + 1) _ _ (by omega) h
          · simp [hc, hi] at h

/-- C7: `select` reports zero survivors as the empty list and cannot raise —
the empty set is a perfectly well-formed output (conj. 1); the
`EmptyCatalogError` of the taxonomy is raised by the orchestrator: a run
whose INIT-iteration catalog filters to empty fails with `emptyCatalog`
(conj. 2), and a run whose INIT catalog survives filtering never reports
`emptyCatalog` (conj. 3). -/
theorem c7_empty_catalog_handling :
    (∀ fs : List CatFilter, select [] fs = [])
    ∧ (∀ (cfg : AlignConfig) (env : AlignEnv) (exps : List Exposure),
        exps.isEmpty = false → cfg.filters.isEmpty = false → 0 < cfg.nmax →
        (select (env.rawCatalog 0) cfg.filters).isEmpty = true →
        align_images cfg env exps = .error .emptyCatalog)
    ∧ (∀ (cfg : AlignConfig) (env : AlignEnv) (exps : List Exposure),
        (select (env.rawCatalog 0) cfg.filters).isEmpty = false →
        align_images cfg env exps ≠ .error .emptyCatalog) := by
  refine ⟨fun fs => ?_, fun cfg env exps h1 h2 h3 h4 => ?_, fun cfg env exps h1 h2 => ?_⟩
  · induction fs with
    | nil => rfl
    | cons f t ih => simpa [select, applyFilter_nil] using ih
  · obtain ⟨m, hm⟩ : ∃ m, cfg.nmax = m + 1 := ⟨cfg.nmax - 1, by omega⟩
    simp [align_images, h1, h2, hm, alignLoop, h4]
  · unfold align_images at h2
    split at h2
    · exact absurd h2 (by simp)
    · exact alignLoop_ne_emptyCatalog cfg env _ 0 _ _ (fun _ => h1) h2

/-- Witness for C7 at a concrete instance: a catalog whose single faint
source fails the flux cut makes the run fail with `emptyCatalog` at INIT. -/
theorem c7_empty_catalog_handling_witness :
    align_images cfgW envEmpty expsW = .error .emptyCatalog :=
  c7_empty_catalog_handling.2.1 cfgW envEmpty expsW (by rfl) (by rfl)
    (by norm_num [cfgW])
    (by norm_num [envEmpty, cfgW, select, applyFilter, srcF, Cmp.eval, SField.get])

/-! ## Component evaluation lemmas for 6-slot vectors -/

/-- `vec6` at slot 0. -/
theorem vec6_zero (a b c d e f : ℚ) : vec6 a b c d e f 0 = a := rfl

/-- `vec6` at slot 1. -/
theorem vec6_one (a b c d e f : ℚ) : vec6 a b c d e f 1 = b := rfl

/-- `vec6` at slot 2. -/
theorem vec6_two (a b c d e f : ℚ) : vec6 a b c d e f 2 = c := rfl

/-- `vec6` at slot 3. -/
theorem vec6_three (a b c d e f : ℚ) : vec6 a b c d e f 3 = d := rfl

/-- `vec6` at slot 4. -/
theorem vec6_four (a b c d e f : ℚ) : vec6 a b c d e f 4 = e := rfl

/-- `vec6` at slot 5. -/
theorem vec6_five (a b c d e f : ℚ) : vec6 a b c d e f 5 = f := rfl

/-! ## Fitter interface claims -/

/-- C2: `fit(pairs, fitgeom, nclip, sigma)` fails with
`InsufficientSourcesError` if and only if the number of source pairs is below
the family minimum (1 for shift, 2 for rscale, 3 for general); and within an
orchestrator iteration each exposure is processed independently — the
iteration produces one entry per exposure and entry `i` depends only on
exposure `i` — so one exposure's fit failure leaves the others' updates
intact. -/
theorem c2_insufficient_sources_iff :
    (∀ (pairs : List PtPair) (g : FitGeom) (nclip : Nat) (sigma : ℚ),
      fit pairs g nclip sigma = .error .insufficientSources ↔ pairs.length < g.minPairs)
    ∧ (∀ (cfg : AlignConfig) (env : AlignEnv) (it : Nat) (exps : List Exposure),
        (runIteration cfg env it exps).length = exps.length)
    ∧ (∀ (cfg : AlignConfig) (env : AlignEnv) (it : Nat) (exps : List Exposure) (i : Nat),
        (runIteration cfg env it exps)[i]? =
          (exps[i]?).map (fun e => runExposure cfg (env.expoData it e.id) e)) := by
  refine ⟨fun pairs g nclip sigma => ⟨fun h => ?_, fun h => ?_⟩,
    fun cfg env it exps => by simp [runIteration],
    fun cfg env it exps i => by simp [runIteration]⟩
  · by_cases hlen : pairs.length < g.minPairs
    · exact hlen
    · exfalso
      unfold fit at h
      rw [if_neg hlen] at h
      rcases hs : famSolve g pairs with _ | θ <;> rw [hs] at h <;> simp at h
  · unfold fit
    rw [if_pos h]

/-- Witness for C2 at a concrete instance: an empty pair list is below the
shift-family minimum of 1, so the fit hard-fails. -/
theorem c2_insufficient_sources_iff_witness :
    fit [] .shift 0 1 = .error .insufficientSources :=
  (c2_insufficient_sources_iff.1 [] .shift 0 1).mpr (by decide)

/-- C9: the Transformation Fitter is deterministic — two successful runs of
`fit` on the same `(pairs, fitgeom, nclip, sigma)` agree on every component
of the result: transform parameters, per-source residuals, retained index
set, retained mask, RMS residual, clipping-round count and per-round
record. -/
theorem c9_fit_deterministic :
    ∀ (pairs : List PtPair) (g : FitGeom) (nclip : Nat) (sigma : ℚ)
      (r1 r2 : FitResult),
      fit pairs g nclip sigma = .ok r1 → fit pairs g nclip sigma = .ok r2 →
      r1.transform = r2.transform ∧ r1.resid2 = r2.resid2 ∧ r1.imgIndx = r2.imgIndx
        ∧ r1.mask = r2.mask ∧ r1.rms2 = r2.rms2 ∧ r1.nClipRounds = r2.nClipRounds
        ∧ r1.roundRms2 = r2.roundRms2 := by
  intro pairs g nclip sigma r1 r2 h1 h2
  rw [h1] at h2
  injection h2 with h
  subst h
  exact ⟨rfl, rfl, rfl, rfl, rfl, rfl, rfl⟩

/-! ## Orchestrator claims: atomic transform update and history shape -/

/-- C8: per-exposure atomicity of the transform update.  In an orchestrator
iteration, an exposure whose fit succeeds gets the composition of the newly
fitted transform with its prior transform; an exposure whose fit fails keeps
its prior transform completely unchanged and is flagged (`fitFailed`) in the
iteration's history record; and the iteration treats exposures independently
(entry `i` of the iteration is exactly `runExposure` of exposure `i`). -/
theorem c8_transform_update_atomic :
    (∀ (cfg : AlignConfig) (d : ExpoData) (e : Exposure) (r : FitResult),
      fit d.pairs cfg.fitgeom cfg.nclip cfg.sigma = .ok r →
      (runExposure cfg d e).1.transform = r.transform.comp e.transform
      ∧ (runExposure cfg d e).1.id = e.id
      ∧ (runExposure cfg d e).2.1.fit_info.fitFailed = false)
    ∧ (∀ (cfg : AlignConfig) (d : ExpoData) (e : Exposure) (err : FitError),
        fit d.pairs cfg.fitgeom cfg.nclip cfg.sigma = .error err →
        (runExposure cfg d e).1 = e
        ∧ (runExposure cfg d e).2.1.fit_info.fitFailed = true
        ∧ (runExposure cfg d e).2.1.fit_info.transform = e.transform)
    ∧ (∀ (cfg : AlignConfig) (env : AlignEnv) (it : Nat) (exps : List Exposure) (i : Nat),
        (runIteration cfg env it exps)[i]? =
          (exps[i]?).map (fun e => runExposure cfg (env.expoData it e.id) e)) := by
  refine ⟨fun cfg d e r h => ?_, fun cfg d e err h => ?_,
    fun cfg env it exps i => by simp [runIteration]⟩
  · simp [runExposure, h]
  · simp [runExposure, h]

/-- The loop keeps at most one history record when `history='last'`. -/
theorem alignLoop_hist_last (cfg : AlignConfig) (env : AlignEnv)
    (hl : cfg.historyLast = true) :
    ∀ (fuel it : Nat) (exps : List Exposure) (hist : List IterRecord)
      (r : AlignResult),
      hist.length ≤ 1 → alignLoop cfg env fuel it exps hist = .ok r →
      r.history.length ≤ 1 := by
  intro fuel
  induction fuel with
  | zero =>
    intro it exps hist r hh h
    rw [alignLoop] at h
    injection h with h
    subst h
    exact hh
  | succ n ih =>
    intro it exps hist r hh h
    rw [alignLoop] at h
    by_cases he : (select (env.rawCatalog it) cfg.filters).isEmpty
    · rw [if_pos he] at h
      by_cases h0 : it = 0
      · simp [h0] at h
      · rw [if_neg h0] at h
        injection h with h
        subst h
        exact hh
    · rw [if_neg he] at h
      rcases hm : maxShift2OfRun (runIteration cfg env it exps) with _ | m <;> rw [hm] at h
      · simp at h
      · by_cases hc : m < cfg.eps_shift ^ 2
        · simp only [hc, if_true] at h
          injection h with h
          subst h
          simp [pushHist, hl]
        · by_cases hi : cfg.iterative
          · simp only [hc, if_false, hi, if_true] at h
            exact ih _ _ _ _ (by simp [pushHist, hl]) h
          · simp only [hc, if_false, hi, if_true] at h
            injection h with h
            subst h
            simp [pushHist, hl]

/-- C10: shape of the returned `FitHistory`.  The retention push always
leaves the newest iteration's record last (`history[-1]` is the most recent
record); `history='last'` retains exactly the one newest record, so a
completed run's history has at most one entry; and each per-exposure entry
carries an `image_info` record holding exactly the image cutouts, drizzled
cutouts, blotted cutouts and correlation surfaces (`ICC`) delivered for that
exposure, plus a `fit_info` record holding the fitted transform, the
retained-index set (`img_indx`) and the residuals. -/
theorem c10_fit_history_shape :
    (∀ (hl : Bool) (hist : List IterRecord) (rec : IterRecord),
      (pushHist hl hist rec).getLast? = some rec)
    ∧ (∀ (hist : List IterRecord) (rec : IterRecord), pushHist true hist rec = [rec])
    ∧ (∀ (cfg : AlignConfig) (env : AlignEnv) (exps : List Exposure) (r : AlignResult),
        cfg.historyLast = true → align_images cfg env exps = .ok r →
        r.history.length ≤ 1)
    ∧ (∀ (cfg : AlignConfig) (d : ExpoData) (e : Exposure),
        (runExposure cfg d e).2.1.image_info.image_cutouts = d.image_cutouts
        ∧ (runExposure cfg d e).2.1.image_info.driz_cutouts = d.driz_cutouts
        ∧ (runExposure cfg d e).2.1.image_info.blotted_cutouts = d.blotted_cutouts
        ∧ (runExposure cfg d e).2.1.image_info.icc = d.icc)
    ∧ (∀ (cfg : AlignConfig) (d : ExpoData) (e : Exposure) (r : FitResult),
        fit d.pairs cfg.fitgeom cfg.nclip cfg.sigma = .ok r →
        (runExposure cfg d e).2.1.fit_info.transform = r.transform
        ∧ (runExposure cfg d e).2.1.fit_info.img_indx = r.imgIndx
        ∧ (runExposure cfg d e).2.1.fit_info.resid2 = r.resid2) := by
  refine ⟨fun hl hist rec => ?_, fun hist rec => by simp [pushHist],
    fun cfg env exps r hl h => ?_, fun cfg d e => ?_, fun cfg d e r h => by simp [runExposure, h]⟩
  · cases hl <;> simp [pushHist]
  · unfold align_images at h
    split at h
    · exact absurd h (by simp)
    · exact alignLoop_hist_last cfg env hl _ 0 _ _ r (by simp) h
  · rcases hf : fit d.pairs cfg.fitgeom cfg.nclip cfg.sigma <;>
      simp [runExposure, hf]

/-- Core behaviour of the orchestrator loop on a successful run: the
iteration count is bounded by the remaining fuel, exhausting the cap is the
`reachedNmax` stop (reported non-converged with the result still returned),
and the convergence flag is set exactly on the `converged` stop, in which
case the last fit's largest per-exposure squared shift was below
`eps_shift²`. -/
theorem alignLoop_props (cfg : AlignConfig) (env : AlignEnv) :
    ∀ (fuel it : Nat) (exps : List Exposure) (hist : List IterRecord)
      (r : AlignResult),
      alignLoop cfg env fuel it exps hist = .ok r →
      r.iterations ≤ it + fuel
      ∧ (r.stop = .reachedNmax → r.converged = false ∧ r.iterations = it + fuel)
      ∧ (r.converged = true ↔ r.stop = .converged)
      ∧ (r.converged = true → ∃ q, r.lastShift2 = some q ∧ q < cfg.eps_shift ^ 2) := by
  intro fuel
  induction fuel with
  | zero =>
    intro it exps hist r h
    rw [alignLoop] at h
    injection h with h
    subst h
    refine ⟨Nat.le_refl _, fun _ => ⟨rfl, rfl⟩, by simp, by simp⟩
  | succ n ih =>
    intro it exps hist r h
    rw [alignLoop] at h
    by_cases he : (select (env.rawCatalog it) cfg.filters).isEmpty
    · rw [if_pos he] at h
      by_cases h0 : it = 0
      · simp [h0] at h
      · rw [if_neg h0] at h
        injection h with h
        subst h
        exact ⟨by show it ≤ it + (n + 1); omega, fun hs => by simp at hs, by simp, by simp⟩
    · rw [if_neg he] at h
      rcases hm : maxShift2OfRun (runIteration cfg env it exps) with _ | m <;> rw [hm] at h
      · simp at h
      · by_cases hc : m < cfg.eps_shift ^ 2
        · simp only [hc, if_true] at h
          injection h with h
          subst h
          exact ⟨by show it + 1 ≤ it + (n + 1); omega, fun hs => by simp at hs, by simp,
            fun _ => ⟨m, rfl, hc⟩⟩
        · by_cases hi : cfg.iterative
          · simp only [hc, if_false, hi, if_true] at h
            have h1 := (ih (it + 1) _ _ r h).1
            have h2 := (ih (it + 1) _ _ r h).2.1
            refine ⟨by omega, fun hs => ⟨(h2 hs).1, ?_⟩, (ih (it + 1) _ _ r h).2.2.1,
              (ih (it + 1) _ _ r h).2.2.2⟩
            have h3 := (h2 hs).2
            omega
          · simp only [hc, if_false, hi, if_true] at h
            injection h with h
            subst h
            exact ⟨by show it + 1 ≤ it + (n + 1); omega, fun hs => by simp at hs, by simp,
              by simp⟩

/-- C1: the `align_images` iteration loop always terminates within `nmax`
iterations.  On a returned result: the iteration count never exceeds `nmax`;
stopping because the cap was reached is reported as non-convergence
(`converged = false`) with the last result still returned, not as an error;
the convergence flag holds exactly when the loop stopped because the largest
per-exposure squared shift magnitude of the latest fit fell below
`eps_shift²`; and the only fatal errors a run can raise are invalid inputs,
an empty INIT catalog, or the loss of every exposure — non-convergence is
never raised as an error. -/
theorem c1_align_iteration_cap :
    (∀ (cfg : AlignConfig) (env : AlignEnv) (exps : List Exposure) (r : AlignResult),
      align_images cfg env exps = .ok r →
      r.iterations ≤ cfg.nmax
      ∧ (r.stop = .reachedNmax → r.converged = false ∧ r.iterations = cfg.nmax)
      ∧ (r.converged = true ↔ r.stop = .converged)
      ∧ (r.converged = true → ∃ q, r.lastShift2 = some q ∧ q < cfg.eps_shift ^ 2))
    ∧ (∀ (cfg : AlignConfig) (env : AlignEnv) (exps : List Exposure) (err : AlignError),
        align_images cfg env exps = .error err →
        err = .invalidInput ∨ err = .emptyCatalog ∨ err = .allExposuresFailed) := by
  constructor
  · intro cfg env exps r h
    unfold align_images at h
    split at h
    · exact absurd h (by simp)
    · have := alignLoop_props cfg env cfg.nmax 0 _ [] r h
      simpa using this
  · intro cfg env exps err _
    cases err <;> simp

/-- Concrete evaluation: the single-pair shift fit. -/
theorem fit_pairs1_eval : fit pairs1 .shift 0 1 = .ok fitResW := by
  norm_num [fit, famSolve, shiftSolve, famToAffine, clipLoop, meanResid2, meanQ,
    resid2A, pairs1, fitResW, FitGeom.minPairs, vec6_two, vec6_five, List.range_succ]

/-- Concrete evaluation: the sample alignment run converges in one
iteration. -/
theorem align_cfgW_eval : align_images cfgW envW expsW = .ok alignResW := by
  norm_num [align_images, alignLoop, select, applyFilter, cfgW, envW, expsW, srcW,
    Cmp.eval, SField.get, runIteration, runExposure, fit, famSolve, shiftSolve,
    famToAffine, clipLoop, meanResid2, meanQ, resid2A, pairs1, fitShift2,
    maxShift2OfRun, pushHist, Affine2.comp, Affine2.id, alignResW,
    FitGeom.minPairs, vec6_two, vec6_five, List.range_succ, List.filterMap_cons,
    List.filterMap_nil, List.foldl_cons, List.foldl_nil]

/-- Witness for C1 at a concrete instance: the sample run stops within the
cap, converged, with its recorded last shift below `eps_shift²`. -/
theorem c1_align_iteration_cap_witness :
    alignResW.iterations ≤ cfgW.nmax
    ∧ (alignResW.stop = .reachedNmax →
        alignResW.converged = false ∧ alignResW.iterations = cfgW.nmax)
    ∧ (alignResW.converged = true ↔ alignResW.stop = .converged)
    ∧ (alignResW.converged = true →
        ∃ q, alignResW.lastShift2 = some q ∧ q < cfgW.eps_shift ^ 2) :=
  c1_align_iteration_cap.1 cfgW envW expsW alignResW align_cfgW_eval

/-- Witness for C8 at a concrete instance: the sample exposure's transform
update is the composition of the fitted transform with the prior one, and
the record is unflagged. -/
theorem c8_transform_update_atomic_witness :
    (runExposure cfgW dataW expW).1.transform = fitResW.transform.comp expW.transform
    ∧ (runExposure cfgW dataW expW).1.id = expW.id
    ∧ (runExposure cfgW dataW expW).2.1.fit_info.fitFailed = false :=
  c8_transform_update_atomic.1 cfgW dataW expW fitResW fit_pairs1_eval

/-- Witness for C9 at a concrete instance: the two (identical) runs of the
sample fit agree componentwise. -/
theorem c9_fit_deterministic_witness :
    fitResW.transform = fitResW.transform ∧ fitResW.resid2 = fitResW.resid2
    ∧ fitResW.imgIndx = fitResW.imgIndx ∧ fitResW.mask = fitResW.mask
    ∧ fitResW.rms2 = fitResW.rms2 ∧ fitResW.nClipRounds = fitResW.nClipRounds
    ∧ fitResW.roundRms2 = fitResW.roundRms2 :=
  c9_fit_deterministic pairs1 .shift 0 1 fitResW fitResW fit_pairs1_eval fit_pairs1_eval

/-- Witness for C10 at a concrete instance: `history='last'` retention keeps
only the newest record, and the sample record's `fit_info` carries the fitted
transform. -/
theorem c10_fit_history_shape_witness :
    pushHist true [recW] recW = [recW]
    ∧ (runExposure cfgW dataW expW).2.1.fit_info.transform = fitResW.transform :=
  ⟨c10_fit_history_shape.2.1 [recW] recW,
   (c10_fit_history_shape.2.2.2.2 cfgW dataW expW fitResW fit_pairs1_eval).1⟩

/-! ## Cross-correlation localizer lemmas -/

/-- The running best of the peak scan never decreases below its seed. -/
theorem foldl_pick_init_le (v : Nat × Nat → ℚ) :
    ∀ (L : List (Nat × Nat)) (p0 : Nat × Nat),
      v p0 ≤ v (L.foldl (fun p q => if v q > v p then q else p) p0) := by
  intro L
  induction L with
  | nil => intro p0; simp
  | cons a t ih =>
    intro p0
    simp only [List.foldl_cons]
    refine le_trans ?_ (ih (if v a > v p0 then a else p0))
    by_cases hb : v a > v p0
    · simp only [hb, if_true]
      exact le_of_lt hb
    · simp only [hb, if_false]
      exact le_refl _

/-- The peak scan's result dominates every scanned position. -/
theorem foldl_pick_mem_le (v : Nat × Nat → ℚ) :
    ∀ (L : List (Nat × Nat)) (p0 q : Nat × Nat), q ∈ L →
      v q ≤ v (L.foldl (fun p q => if v q > v p then q else p) p0) := by
  intro L
  induction L with
  | nil => intro p0 q hq; simp at hq
  | cons a t ih =>
    intro p0 q hq
    rcases List.mem_cons.mp hq with rfl | hq'
    · simp only [List.foldl_cons]
      refine le_trans ?_ (foldl_pick_init_le v t _)
      by_cases hb : v q > v p0
      · simp [hb]
      · simp [hb]
        exact le_of_not_lt hb
    · simp only [List.foldl_cons]
      exact ih _ q hq'

/-- The peak scan returns its seed or a scanned position. -/
theorem foldl_pick_mem (v : Nat × Nat → ℚ) :
    ∀ (L : List (Nat × Nat)) (p0 : Nat × Nat),
      L.foldl (fun p q => if v q > v p then q else p) p0 = p0
        ∨ L.foldl (fun p q => if v q > v p then q else p) p0 ∈ L := by
  intro L
  induction L with
  | nil => intro p0; exact Or.inl rfl
  | cons a t ih =>
    intro p0
    simp only [List.foldl_cons]
    rcases ih (if v a > v p0 then a else p0) with h | h
    · rw [h]
      by_cases hb : v a > v p0
      · simp only [hb, if_true]
        exact Or.inr (List.mem_cons_self _ _)
      · simp only [hb, if_false]
        left
        trivial
    · exact Or.inr (List.mem_cons_of_mem _ h)

/-- Membership in the row-major scan grid. -/
theorem mem_scan_grid {n : Nat} {p : Nat × Nat} :
    p ∈ (List.range n).flatMap (fun i => (List.range n).map (fun j => (i, j)))
      ↔ p.1 < n ∧ p.2 < n := by
  rcases p with ⟨i, j⟩
  simp only [List.mem_flatMap, List.mem_map, List.mem_range, Prod.mk.injEq]
  constructor
  · rintro ⟨a, ha, b, hb, rfl, rfl⟩
    exact ⟨ha, hb⟩
  · rintro ⟨hi, hj⟩
    exact ⟨i, hi, j, hj, rfl, rfl⟩

/-- The correlation surface has one row of displacements per cutout row. -/
theorem crossCorr_length (a b : Cutout) : (crossCorr a b).length = a.data.length := by
  simp only [crossCorr, List.length_map, List.length_range]

/-- The discrete peak dominates every surface position. -/
theorem ccPeak_max (cc : List (List ℚ)) (i j : Nat)
    (hi : i < cc.length) (hj : j < cc.length) :
    pixAt cc (i : Int) (j : Int) ≤
      pixAt cc ((ccPeak cc).1 : Int) ((ccPeak cc).2 : Int) := by
  unfold ccPeak
  exact foldl_pick_mem_le (fun p => pixAt cc (p.1 : Int) (p.2 : Int)) _ (0, 0) (i, j)
    (mem_scan_grid.mpr ⟨hi, hj⟩)

/-- The discrete peak is the origin seed or lies on the surface grid. -/
theorem ccPeak_cases (cc : List (List ℚ)) :
    ccPeak cc = (0, 0) ∨ ((ccPeak cc).1 < cc.length ∧ (ccPeak cc).2 < cc.length) := by
  unfold ccPeak
  rcases foldl_pick_mem (fun p => pixAt cc (p.1 : Int) (p.2 : Int)) _ (0, 0) with h | h
  · exact Or.inl h
  · exact Or.inr (mem_scan_grid.mp h)

/-- C5: for every pair of cutouts, `localize` flags its result valid exactly
when the discrete correlation peak is off the cutout border and is a strict
local maximum of the correlation surface (so the flag is false exactly in the
border / non-strict-maximum cases); the discrete peak indeed dominates every
position of the surface; a valid peak is strictly interior; and for an
odd-sized surface a valid result's discrete peak displacement from the center
is strictly below half the cutout size on each axis — a true shift of at
least half the cutout size can only produce a border (or flat) peak, which is
flagged invalid, never silently returned. -/
theorem c5_localize_validity :
    ∀ (a b : Cutout),
      ((localize a b).ipeak = ccPeak (crossCorr a b))
      ∧ ((localize a b).valid = true ↔
          (onBorder (crossCorr a b).length (ccPeak (crossCorr a b)) = false
            ∧ strictLocalMax (crossCorr a b) (ccPeak (crossCorr a b)) = true))
      ∧ (∀ i j : Nat, i < (crossCorr a b).length → j < (crossCorr a b).length →
          pixAt (crossCorr a b) (i : Int) (j : Int) ≤
            pixAt (crossCorr a b) ((ccPeak (crossCorr a b)).1 : Int)
              ((ccPeak (crossCorr a b)).2 : Int))
      ∧ ((localize a b).valid = true →
          1 ≤ (ccPeak (crossCorr a b)).1
          ∧ (ccPeak (crossCorr a b)).1 + 2 ≤ (crossCorr a b).length
          ∧ 1 ≤ (ccPeak (crossCorr a b)).2
          ∧ (ccPeak (crossCorr a b)).2 + 2 ≤ (crossCorr a b).length)
      ∧ ((localize a b).valid = true → (crossCorr a b).length % 2 = 1 →
          (((ccPeak (crossCorr a b)).1 : Int) - ((crossCorr a b).length - 1) / 2 <
              ((crossCorr a b).length : Int) / 2
            ∧ (((crossCorr a b).length : Int) - 1) / 2 - ((ccPeak (crossCorr a b)).1 : Int) <
              ((crossCorr a b).length : Int) / 2)
          ∧ (((ccPeak (crossCorr a b)).2 : Int) - ((crossCorr a b).length - 1) / 2 <
              ((crossCorr a b).length : Int) / 2
            ∧ (((crossCorr a b).length : Int) - 1) / 2 - ((ccPeak (crossCorr a b)).2 : Int) <
              ((crossCorr a b).length : Int) / 2)) := by
  intro a b
  have hvalid : (localize a b).valid = true ↔
      (onBorder (crossCorr a b).length (ccPeak (crossCorr a b)) = false
        ∧ strictLocalMax (crossCorr a b) (ccPeak (crossCorr a b)) = true) := by
    simp [localize, Bool.and_eq_true, Bool.not_eq_true']
  have hinterior : (localize a b).valid = true →
      1 ≤ (ccPeak (crossCorr a b)).1
      ∧ (ccPeak (crossCorr a b)).1 + 2 ≤ (crossCorr a b).length
      ∧ 1 ≤ (ccPeak (crossCorr a b)).2
      ∧ (ccPeak (crossCorr a b)).2 + 2 ≤ (crossCorr a b).length := by
    intro hv
    have hb := (hvalid.mp hv).1
    simp only [onBorder, Bool.or_eq_false_iff, decide_eq_false_iff_not] at hb
    rcases ccPeak_cases (crossCorr a b) with h0 | hgrid
    · exact absurd (by rw [h0]) hb.1.1.1
    · omega
  refine ⟨rfl, hvalid, fun i j hi hj => ccPeak_max _ i j hi hj, hinterior, ?_⟩
  intro hv hodd
  have h := hinterior hv
  omega

/-- Witness for C5 at a concrete instance: the delta-cutout correlation
surface is dominated by its discrete peak, checked at position `(0, 0)`. -/
theorem c5_localize_validity_witness :
    pixAt (crossCorr cutW cutW) ((0 : Nat) : Int) ((0 : Nat) : Int) ≤
      pixAt (crossCorr cutW cutW) ((ccPeak (crossCorr cutW cutW)).1 : Int)
        ((ccPeak (crossCorr cutW cutW)).2 : Int) :=
  (c5_localize_validity cutW cutW).2.2.1 0 0
    (by rw [crossCorr_length]; norm_num [cutW])
    (by rw [crossCorr_length]; norm_num [cutW])

/-! ## Sigma-clipping invariants -/

/-- Every family requires at least one pair. -/
theorem minPairs_pos (g : FitGeom) : 1 ≤ g.minPairs := by
  cases g <;> simp [FitGeom.minPairs]

/-- The clipping loop never lets the retained count drop below the family
minimum: a round that would do so is rejected and the loop stops at the prior
round's state. -/
theorem clipLoop_kept_min (g : FitGeom) (sigma : ℚ) :
    ∀ (n : Nat) (cur : List (Nat × PtPair)) (t : Affine2),
      g.minPairs ≤ cur.length → g.minPairs ≤ (clipLoop g sigma n cur t).kept.length := by
  intro n
  induction n with
  | zero => intro cur t h; exact h
  | succ n ih =>
    intro cur t h
    rw [clipLoop]
    by_cases h1 : (clipSurvivors sigma t cur).length = cur.length
    · rw [if_pos h1]; exact h
    · rw [if_neg h1]
      by_cases h2 : (clipSurvivors sigma t cur).length < g.minPairs
      · rw [if_pos h2]; exact h
      · rw [if_neg h2]
        rcases hs : famSolve g ((clipSurvivors sigma t cur).map Prod.snd) with _ | θ
        · exact h
        · exact ih _ _ (Nat.le_of_not_lt h2)

/-- C3: invariant of the sigma-clipping loop — every successful fit retains
at least the family's minimum number of sources (the retained-index set is
never smaller than `minPairs fitgeom`), and a clipping round whose survivor
set would fall below that minimum is rejected: the loop stops at the prior
round's result (retained set, transform and round records unchanged), so an
underdetermined fit is never produced. -/
theorem c3_clip_min_retained :
    (∀ (pairs : List PtPair) (g : FitGeom) (nclip : Nat) (sigma : ℚ) (r : FitResult),
      fit pairs g nclip sigma = .ok r → g.minPairs ≤ r.imgIndx.length)
    ∧ (∀ (g : FitGeom) (sigma : ℚ) (nclip : Nat) (cur : List (Nat × PtPair)) (t : Affine2),
        (clipSurvivors sigma t cur).length < g.minPairs →
        clipLoop g sigma (nclip + 1) cur t = ⟨cur, t, [], 0⟩) := by
  constructor
  · intro pairs g nclip sigma r h
    unfold fit at h
    by_cases hlen : pairs.length < g.minPairs
    · rw [if_pos hlen] at h
      exact absurd h (by simp)
    · rw [if_neg hlen] at h
      rcases hs : famSolve g pairs with _ | θ0 <;> rw [hs] at h
      · exact absurd h (by simp)
      · injection h with h
        subst h
        show g.minPairs ≤
          ((clipLoop g sigma nclip ((List.range pairs.length).zip pairs)
            (famToAffine g θ0)).kept.map Prod.fst).length
        rw [List.length_map]
        refine clipLoop_kept_min g sigma nclip _ _ ?_
        rw [List.length_zip, List.length_range]
        omega
  · intro g sigma nclip cur t h2
    rw [clipLoop]
    by_cases h1 : (clipSurvivors sigma t cur).length = cur.length
    · rw [if_pos h1]
    · rw [if_neg h1, if_pos h2]

/-- Concrete evaluation: the four-pair shift fit with one gross outlier
performs one clipping round, discards the outlier, and refits exactly. -/
theorem fit_pairsW_eval : fit pairsW .shift 2 1 = .ok fitResW2 := by
  norm_num [fit, famSolve, shiftSolve, famToAffine, clipLoop, clipSurvivors, clipVar,
    keepPred, meanResid2, meanQ, resid2A, pairsW, fitResW2, FitGeom.minPairs, vec6_two,
    vec6_five, List.range_succ]

/-- Witness for C3 at a concrete instance: the sample clipped fit retains 3
sources, at least the shift-family minimum of 1. -/
theorem c3_clip_min_retained_witness :
    FitGeom.shift.minPairs ≤ fitResW2.imgIndx.length :=
  c3_clip_min_retained.1 pairsW .shift 2 1 fitResW2 fit_pairsW_eval

/-! ## RMS monotonicity of sigma-clipping: arithmetic core -/

/-- A constant right factor moves out of a mapped sum. -/
theorem lsum_map_mul_right {α : Type} (l : List α) (c : ℚ) (f : α → ℚ) :
    (l.map (fun a => f a * c)).sum = (l.map f).sum * c := by
  induction l with
  | nil => simp
  | cons a t ih => simp [ih]; ring

/-- The mean of a list of non-negative rationals is non-negative. -/
theorem meanQ_nonneg (l : List ℚ) (h : ∀ x ∈ l, 0 ≤ x) : 0 ≤ meanQ l :=
  div_nonneg (List.sum_nonneg h) (Nat.cast_nonneg _)

/-- One-sidedness of the clipping predicate: every discarded squared residual
strictly exceeds the common threshold, hence every kept one. -/
theorem keepPred_le (mu s2v a b : ℚ)
    (ha : keepPred mu s2v a = true) (hb : keepPred mu s2v b = false) : a ≤ b := by
  simp only [keepPred, decide_eq_true_eq] at ha
  have hb' : ¬(b ≤ mu ∨ (b - mu) ^ 2 ≤ s2v) := by
    simpa [keepPred] using hb
  push_neg at hb'
  obtain ⟨hb1, hb2⟩ := hb'
  by_contra hab
  push_neg at hab
  rcases ha with ha | ha
  · linarith
  · rcases le_or_lt a mu with h | h
    · linarith
    · nlinarith [sq_nonneg (a - mu), sq_nonneg (b - mu)]

/-- Removing the sources beyond the clipping threshold never increases the
mean of the squared residuals: the discarded values all exceed the retained
ones. -/
theorem keep_mean_le (q : List ℚ) (mu s2v : ℚ)
    (hne : q.filter (keepPred mu s2v) ≠ []) :
    meanQ (q.filter (keepPred mu s2v)) ≤ meanQ q := by
  have hsum : (q.filter (keepPred mu s2v)).sum
      + (q.filter (fun a => !keepPred mu s2v a)).sum = q.sum :=
    lsum_filter_split q _
  have hlen : (q.filter (keepPred mu s2v)).length
      + (q.filter (fun a => !keepPred mu s2v a)).length = q.length :=
    llen_filter_split q _
  have hKpos : 0 < (q.filter (keepPred mu s2v)).length :=
    List.length_pos.mpr hne
  have hpair : ∀ b ∈ q.filter (fun a => !keepPred mu s2v a),
      (q.filter (keepPred mu s2v)).sum ≤ ((q.filter (keepPred mu s2v)).length : ℚ) * b := by
    intro b hb
    have hbf : keepPred mu s2v b = false := by
      have := (List.mem_filter.mp hb).2
      simpa using this
    have := List.sum_le_card_nsmul (q.filter (keepPred mu s2v)) b
      (fun a ha => keepPred_le mu s2v a b (List.mem_filter.mp ha).2 hbf)
    simpa [nsmul_eq_mul] using this
  have hkey : ((q.filter (fun a => !keepPred mu s2v a)).length : ℚ)
        * (q.filter (keepPred mu s2v)).sum
      ≤ ((q.filter (keepPred mu s2v)).length : ℚ)
        * (q.filter (fun a => !keepPred mu s2v a)).sum := by
    have h1 : ((q.filter (fun a => !keepPred mu s2v a)).map
          (fun _ => (q.filter (keepPred mu s2v)).sum)).sum
        ≤ ((q.filter (fun a => !keepPred mu s2v a)).map
          (fun b => ((q.filter (keepPred mu s2v)).length : ℚ) * b)).sum :=
      List.sum_le_sum hpair
    rw [lsum_map_const, lsum_map_mul_left] at h1
    simpa using h1
  have hqpos : 0 < q.length := by omega
  unfold meanQ
  rw [div_le_div_iff₀ (by exact_mod_cast hKpos) (by exact_mod_cast hqpos)]
  have hcast : (q.length : ℚ) = ((q.filter (keepPred mu s2v)).length : ℚ)
      + ((q.filter (fun a => !keepPred mu s2v a)).length : ℚ) := by
    exact_mod_cast hlen.symm
  rw [hcast, ← hsum]
  nlinarith [hkey]

/-- Optimality of a parameter vector satisfying the normal equations: among
all parameter vectors of the (linearly parametrized) family, it minimizes the
sum of squared residuals over the pair list. -/
theorem lsq_optimal (ux uy : PtPair → Fin 6 → ℚ) (tx ty : PtPair → ℚ)
    (ps : List PtPair) (θ θ' : Fin 6 → ℚ)
    (hnorm : ∀ m : Fin 6,
      (ps.map (fun p => ux p m * (dot6 (ux p) θ - tx p)
        + uy p m * (dot6 (uy p) θ - ty p))).sum = 0) :
    (ps.map (fun p => (dot6 (ux p) θ - tx p) ^ 2 + (dot6 (uy p) θ - ty p) ^ 2)).sum
      ≤ (ps.map (fun p => (dot6 (ux p) θ' - tx p) ^ 2 + (dot6 (uy p) θ' - ty p) ^ 2)).sum := by
  have hdot : ∀ u : Fin 6 → ℚ,
      dot6 u θ' = dot6 u θ + dot6 u (fun m => θ' m - θ m) := by
    intro u
    simp only [dot6]
    rw [← Finset.sum_add_distrib]
    exact Finset.sum_congr rfl (fun m _ => by ring)
  have hsplit : ∀ l : List PtPair, (l.map (fun p => (dot6 (ux p) θ' - tx p) ^ 2
        + (dot6 (uy p) θ' - ty p) ^ 2)).sum
      = (l.map (fun p => (dot6 (ux p) θ - tx p) ^ 2 + (dot6 (uy p) θ - ty p) ^ 2)).sum
        + 2 * (l.map (fun p => (dot6 (ux p) θ - tx p) * dot6 (ux p) (fun m => θ' m - θ m)
            + (dot6 (uy p) θ - ty p) * dot6 (uy p) (fun m => θ' m - θ m))).sum
        + (l.map (fun p => (dot6 (ux p) (fun m => θ' m - θ m)) ^ 2
            + (dot6 (uy p) (fun m => θ' m - θ m)) ^ 2)).sum := by
    intro l
    induction l with
    | nil => simp
    | cons p t ih =>
      simp only [List.map_cons, List.sum_cons]
      rw [ih, hdot (ux p), hdot (uy p)]
      ring
  have expand : ∀ p : PtPair,
      (dot6 (ux p) θ - tx p) * dot6 (ux p) (fun m => θ' m - θ m)
        + (dot6 (uy p) θ - ty p) * dot6 (uy p) (fun m => θ' m - θ m)
      = ∑ m : Fin 6, (ux p m * (dot6 (ux p) θ - tx p)
          + uy p m * (dot6 (uy p) θ - ty p)) * (θ' m - θ m) := by
    intro p
    simp only [dot6]
    rw [Finset.mul_sum, Finset.mul_sum, ← Finset.sum_add_distrib]
    exact Finset.sum_congr rfl (fun m _ => by ring)
  have hcross : (ps.map (fun p => (dot6 (ux p) θ - tx p) * dot6 (ux p) (fun m => θ' m - θ m)
      + (dot6 (uy p) θ - ty p) * dot6 (uy p) (fun m => θ' m - θ m))).sum = 0 := by
    simp only [expand]
    rw [lsum_finsum_comm]
    refine Finset.sum_eq_zero (fun m _ => ?_)
    rw [lsum_map_mul_right, hnorm m, zero_mul]
  have hnn : 0 ≤ (ps.map (fun p => (dot6 (ux p) (fun m => θ' m - θ m)) ^ 2
      + (dot6 (uy p) (fun m => θ' m - θ m)) ^ 2)).sum := by
    refine List.sum_nonneg (fun x hx => ?_)
    obtain ⟨p, _, rfl⟩ := List.mem_map.mp hx
    positivity
  linarith [hsplit ps, hcross, hnn]

/-! ## Normal equations of the family solvers -/

/-- Linear combination of two mapped sums. -/
theorem lsum_two_smul (ps : List PtPair) (A B : ℚ) (f g : PtPair → ℚ) :
    (ps.map (fun p => A * f p + B * g p)).sum
      = A * (ps.map f).sum + B * (ps.map g).sum := by
  induction ps with
  | nil => simp
  | cons p t ih => simp only [List.map_cons, List.sum_cons, ih]; ring

/-- Expansion of a constant-minus-x-displacement sum. -/
theorem expandShiftX (ps : List PtPair) (c : ℚ) :
    (ps.map (fun p => c - (p.xp - p.x))).sum
      = (ps.length : ℚ) * c - (ps.map (fun p => p.xp - p.x)).sum := by
  induction ps with
  | nil => simp
  | cons p t ih =>
    simp only [List.map_cons, List.sum_cons, ih, List.length_cons]
    push_cast
    ring

/-- Expansion of a constant-minus-y-displacement sum. -/
theorem expandShiftY (ps : List PtPair) (c : ℚ) :
    (ps.map (fun p => c - (p.yp - p.y))).sum
      = (ps.length : ℚ) * c - (ps.map (fun p => p.yp - p.y)).sum := by
  induction ps with
  | nil => simp
  | cons p t ih =>
    simp only [List.map_cons, List.sum_cons, ih, List.length_cons]
    push_cast
    ring

/-- The shift-family solution (the mean displacement) satisfies its normal
equations. -/
theorem shiftSolve_normal (ps : List PtPair) (θ : Fin 6 → ℚ)
    (h : shiftSolve ps = some θ) (m : Fin 6) :
    (ps.map (fun p => famUx .shift p m * (dot6 (famUx .shift p) θ - famTx .shift p)
      + famUy .shift p m * (dot6 (famUy .shift p) θ - famTy .shift p))).sum = 0 := by
  unfold shiftSolve at h
  by_cases hlen : ps.length = 0
  · rw [if_pos hlen] at h
    exact absurd h (by simp)
  · rw [if_neg hlen] at h
    injection h with h
    subst h
    have hn : (ps.length : ℚ) ≠ 0 := Nat.cast_ne_zero.mpr hlen
    rw [show (fun p : PtPair => famUx .shift p m * (dot6 (famUx .shift p)
          (vec6 0 0 ((ps.map (fun p => p.xp - p.x)).sum / (ps.length : ℚ)) 0 0
            ((ps.map (fun p => p.yp - p.y)).sum / (ps.length : ℚ))) - famTx .shift p)
        + famUy .shift p m * (dot6 (famUy .shift p)
          (vec6 0 0 ((ps.map (fun p => p.xp - p.x)).sum / (ps.length : ℚ)) 0 0
            ((ps.map (fun p => p.yp - p.y)).sum / (ps.length : ℚ))) - famTy .shift p))
      = (fun p : PtPair => vec6 0 0 1 0 0 0 m
          * ((ps.map (fun p => p.xp - p.x)).sum / (ps.length : ℚ) - (p.xp - p.x))
        + vec6 0 0 0 0 0 1 m
          * ((ps.map (fun p => p.yp - p.y)).sum / (ps.length : ℚ) - (p.yp - p.y)))
      from funext fun p => by
        simp only [famUx, famUy, famTx, famTy, dot6, Fin.sum_univ_six, vec6_zero, vec6_one,
          vec6_two, vec6_three, vec6_four, vec6_five]
        ring]
    rw [lsum_two_smul, expandShiftX, expandShiftY]
    field_simp

/-- Any 6-slot vector is the pointwise linear combination of the slot basis
vectors. -/
theorem vec6_decomp (a b c d e f : ℚ) (m : Fin 6) :
    vec6 a b c d e f m = a * vec6 1 0 0 0 0 0 m + b * vec6 0 1 0 0 0 0 m
      + c * vec6 0 0 1 0 0 0 m + d * vec6 0 0 0 1 0 0 m + e * vec6 0 0 0 0 1 0 m
      + f * vec6 0 0 0 0 0 1 m := by
  rcases m with ⟨mv, hmv⟩
  interval_cases mv <;> simp [vec6]

/-- Linear combination of four mapped sums. -/
theorem lsum_four_smul (ps : List PtPair) (A B C D : ℚ) (f g h k : PtPair → ℚ) :
    (ps.map (fun p => A * f p + B * g p + C * h p + D * k p)).sum
      = A * (ps.map f).sum + B * (ps.map g).sum + C * (ps.map h).sum
        + D * (ps.map k).sum := by
  induction ps with
  | nil => simp
  | cons p t ih => simp only [List.map_cons, List.sum_cons, ih]; ring

/-- Linear combination of six mapped sums. -/
theorem lsum_six_smul (ps : List PtPair) (A B C D E F : ℚ)
    (f g h k l n : PtPair → ℚ) :
    (ps.map (fun p => A * f p + B * g p + C * h p + D * k p + E * l p + F * n p)).sum
      = A * (ps.map f).sum + B * (ps.map g).sum + C * (ps.map h).sum
        + D * (ps.map k).sum + E * (ps.map l).sum + F * (ps.map n).sum := by
  induction ps with
  | nil => simp
  | cons p t ih => simp only [List.map_cons, List.sum_cons, ih]; ring

/-- Expansion of the rscale a-direction normal sum. -/
theorem expandRscale0 (ps : List PtPair) (a b tx ty : ℚ) :
    (ps.map (fun p => p.x * (p.x * a + p.y * -b + tx - p.xp)
      + p.y * (p.y * a + p.x * b + ty - p.yp))).sum
      = a * ((ps.map (fun p => p.x * p.x)).sum + (ps.map (fun p => p.y * p.y)).sum)
        + tx * (ps.map (fun p => p.x)).sum + ty * (ps.map (fun p => p.y)).sum
        - ((ps.map (fun p => p.x * p.xp)).sum + (ps.map (fun p => p.y * p.yp)).sum) := by
  induction ps with
  | nil => simp
  | cons p t ih => simp only [List.map_cons, List.sum_cons, ih]; ring

/-- Expansion of the rscale b-direction normal sum. -/
theorem expandRscale1 (ps : List PtPair) (a b tx ty : ℚ) :
    (ps.map (fun p => -p.y * (p.x * a + p.y * -b + tx - p.xp)
      + p.x * (p.y * a + p.x * b + ty - p.yp))).sum
      = b * ((ps.map (fun p => p.x * p.x)).sum + (ps.map (fun p => p.y * p.y)).sum)
        - tx * (ps.map (fun p => p.y)).sum + ty * (ps.map (fun p => p.x)).sum
        - ((ps.map (fun p => p.x * p.yp)).sum - (ps.map (fun p => p.y * p.xp)).sum) := by
  induction ps with
  | nil => simp
  | cons p t ih => simp only [List.map_cons, List.sum_cons, ih]; ring

/-- Expansion of the rscale x-translation normal sum. -/
theorem expandRscale2 (ps : List PtPair) (a b tx : ℚ) :
    (ps.map (fun p => p.x * a + p.y * -b + tx - p.xp)).sum
      = a * (ps.map (fun p => p.x)).sum - b * (ps.map (fun p => p.y)).sum
        + (ps.length : ℚ) * tx - (ps.map (fun p => p.xp)).sum := by
  induction ps with
  | nil => simp
  | cons p t ih =>
    simp only [List.map_cons, List.sum_cons, ih, List.length_cons]
    push_cast
    ring

/-- Expansion of the rscale y-translation normal sum. -/
theorem expandRscale5 (ps : List PtPair) (a b ty : ℚ) :
    (ps.map (fun p => p.y * a + p.x * b + ty - p.yp)).sum
      = a * (ps.map (fun p => p.y)).sum + b * (ps.map (fun p => p.x)).sum
        + (ps.length : ℚ) * ty - (ps.map (fun p => p.yp)).sum := by
  induction ps with
  | nil => simp
  | cons p t ih =>
    simp only [List.map_cons, List.sum_cons, ih, List.length_cons]
    push_cast
    ring

/-- The rscale-family closed-form solution satisfies its normal equations. -/
theorem rscaleSolve_normal (ps : List PtPair) (θ : Fin 6 → ℚ)
    (h : rscaleSolve ps = some θ) (m : Fin 6) :
    (ps.map (fun p => famUx .rscale p m * (dot6 (famUx .rscale p) θ - famTx .rscale p)
      + famUy .rscale p m * (dot6 (famUy .rscale p) θ - famTy .rscale p))).sum = 0 := by
  unfold rscaleSolve at h
  by_cases hc : (ps.length : ℚ) = 0 ∨ rscaleDD ps = 0
  · rw [if_pos hc] at h
    exact absurd h (by simp)
  · rw [if_neg hc] at h
    injection h with h
    subst h
    push_neg at hc
    obtain ⟨hn, hdd⟩ := hc
    rw [show (fun p : PtPair => famUx .rscale p m * (dot6 (famUx .rscale p)
          (vec6 (rscaleA ps) (rscaleB ps) (rscaleTX ps) 0 0 (rscaleTY ps)) - famTx .rscale p)
        + famUy .rscale p m * (dot6 (famUy .rscale p)
          (vec6 (rscaleA ps) (rscaleB ps) (rscaleTX ps) 0 0 (rscaleTY ps)) - famTy .rscale p))
      = (fun p : PtPair =>
          vec6 1 0 0 0 0 0 m * (p.x * (p.x * rscaleA ps + p.y * -rscaleB ps + rscaleTX ps - p.xp)
            + p.y * (p.y * rscaleA ps + p.x * rscaleB ps + rscaleTY ps - p.yp))
        + vec6 0 1 0 0 0 0 m * (-p.y * (p.x * rscaleA ps + p.y * -rscaleB ps + rscaleTX ps - p.xp)
            + p.x * (p.y * rscaleA ps + p.x * rscaleB ps + rscaleTY ps - p.yp))
        + vec6 0 0 1 0 0 0 m * (p.x * rscaleA ps + p.y * -rscaleB ps + rscaleTX ps - p.xp)
        + vec6 0 0 0 0 0 1 m * (p.y * rscaleA ps + p.x * rscaleB ps + rscaleTY ps - p.yp))
      from funext fun p => by
        simp only [famUx, famUy, famTx, famTy]
        rw [vec6_decomp p.x (-p.y) 1 0 0 0 m, vec6_decomp p.y p.x 0 0 0 1 m]
        simp only [dot6, Fin.sum_univ_six, vec6_zero, vec6_one, vec6_two, vec6_three,
          vec6_four, vec6_five]
        ring]
    rw [lsum_four_smul, expandRscale0, expandRscale1, expandRscale2, expandRscale5]
    have hdd' : (ps.length : ℚ) * ((ps.map (fun p => p.x * p.x)).sum
        + (ps.map (fun p => p.y * p.y)).sum)
        - (ps.map (fun p => p.x)).sum * (ps.map (fun p => p.x)).sum
        - (ps.map (fun p => p.y)).sum * (ps.map (fun p => p.y)).sum ≠ 0 := by
      simpa [rscaleDD, sX, sY, sXX, sYY] using hdd
    simp only [rscaleA, rscaleB, rscaleTX, rscaleTY, rscaleDD, sX, sY, sXX, sXY, sYY,
      sXP, sYP, sXXP, sYXP, sXYP, sYYP]
    field_simp
    ring

/-- Expansion of the general-family x-system normal sum, x-weighted. -/
theorem expandGenX0 (ps : List PtPair) (a b c : ℚ) :
    (ps.map (fun p => p.x * (p.x * a + p.y * b + c - p.xp))).sum
      = a * (ps.map (fun p => p.x * p.x)).sum + b * (ps.map (fun p => p.x * p.y)).sum
        + c * (ps.map (fun p => p.x)).sum - (ps.map (fun p => p.x * p.xp)).sum := by
  induction ps with
  | nil => simp
  | cons p t ih => simp only [List.map_cons, List.sum_cons, ih]; ring

/-- Expansion of the general-family x-system normal sum, y-weighted. -/
theorem expandGenX1 (ps : List PtPair) (a b c : ℚ) :
    (ps.map (fun p => p.y * (p.x * a + p.y * b + c - p.xp))).sum
      = a * (ps.map (fun p => p.x * p.y)).sum + b * (ps.map (fun p => p.y * p.y)).sum
        + c * (ps.map (fun p => p.y)).sum - (ps.map (fun p => p.y * p.xp)).sum := by
  induction ps with
  | nil => simp
  | cons p t ih => simp only [List.map_cons, List.sum_cons, ih]; ring

/-- Expansion of the general-family x-system normal sum, unweighted. -/
theorem expandGenX2 (ps : List PtPair) (a b c : ℚ) :
    (ps.map (fun p => p.x * a + p.y * b + c - p.xp)).sum
      = a * (ps.map (fun p => p.x)).sum + b * (ps.map (fun p => p.y)).sum
        + (ps.length : ℚ) * c - (ps.map (fun p => p.xp)).sum := by
  induction ps with
  | nil => simp
  | cons p t ih =>
    simp only [List.map_cons, List.sum_cons, ih, List.length_cons]
    push_cast
    ring

/-- Expansion of the general-family y-system normal sum, x-weighted. -/
theorem expandGenY0 (ps : List PtPair) (a b c : ℚ) :
    (ps.map (fun p => p.x * (p.x * a + p.y * b + c - p.yp))).sum
      = a * (ps.map (fun p => p.x * p.x)).sum + b * (ps.map (fun p => p.x * p.y)).sum
        + c * (ps.map (fun p => p.x)).sum - (ps.map (fun p => p.x * p.yp)).sum := by
  induction ps with
  | nil => simp
  | cons p t ih => simp only [List.map_cons, List.sum_cons, ih]; ring

/-- Expansion of the general-family y-system normal sum, y-weighted. -/
theorem expandGenY1 (ps : List PtPair) (a b c : ℚ) :
    (ps.map (fun p => p.y * (p.x * a + p.y * b + c - p.yp))).sum
      = a * (ps.map (fun p => p.x * p.y)).sum + b * (ps.map (fun p => p.y * p.y)).sum
        + c * (ps.map (fun p => p.y)).sum - (ps.map (fun p => p.y * p.yp)).sum := by
  induction ps with
  | nil => simp
  | cons p t ih => simp only [List.map_cons, List.sum_cons, ih]; ring

/-- Expansion of the general-family y-system normal sum, unweighted. -/
theorem expandGenY2 (ps : List PtPair) (a b c : ℚ) :
    (ps.map (fun p => p.x * a + p.y * b + c - p.yp)).sum
      = a * (ps.map (fun p => p.x)).sum + b * (ps.map (fun p => p.y)).sum
        + (ps.length : ℚ) * c - (ps.map (fun p => p.yp)).sum := by
  induction ps with
  | nil => simp
  | cons p t ih =>
    simp only [List.map_cons, List.sum_cons, ih, List.length_cons]
    push_cast
    ring

/-- The general-family Cramer solution satisfies its normal equations. -/
theorem generalSolve_normal (ps : List PtPair) (θ : Fin 6 → ℚ)
    (h : generalSolve ps = some θ) (m : Fin 6) :
    (ps.map (fun p => famUx .general p m * (dot6 (famUx .general p) θ - famTx .general p)
      + famUy .general p m * (dot6 (famUy .general p) θ - famTy .general p))).sum = 0 := by
  unfold generalSolve at h
  by_cases hc : genDet ps = 0
  · rw [if_pos hc] at h
    exact absurd h (by simp)
  · rw [if_neg hc] at h
    injection h with h
    subst h
    rw [show (fun p : PtPair => famUx .general p m * (dot6 (famUx .general p)
          (vec6 (genSolA ps (sXXP ps) (sYXP ps) (sXP ps))
            (genSolB ps (sXXP ps) (sYXP ps) (sXP ps))
            (genSolC ps (sXXP ps) (sYXP ps) (sXP ps))
            (genSolA ps (sXYP ps) (sYYP ps) (sYP ps))
            (genSolB ps (sXYP ps) (sYYP ps) (sYP ps))
            (genSolC ps (sXYP ps) (sYYP ps) (sYP ps))) - famTx .general p)
        + famUy .general p m * (dot6 (famUy .general p)
          (vec6 (genSolA ps (sXXP ps) (sYXP ps) (sXP ps))
            (genSolB ps (sXXP ps) (sYXP ps) (sXP ps))
            (genSolC ps (sXXP ps) (sYXP ps) (sXP ps))
            (genSolA ps (sXYP ps) (sYYP ps) (sYP ps))
            (genSolB ps (sXYP ps) (sYYP ps) (sYP ps))
            (genSolC ps (sXYP ps) (sYYP ps) (sYP ps))) - famTy .general p))
      = (fun p : PtPair =>
          vec6 1 0 0 0 0 0 m * (p.x * (p.x * genSolA ps (sXXP ps) (sYXP ps) (sXP ps)
            + p.y * genSolB ps (sXXP ps) (sYXP ps) (sXP ps)
            + genSolC ps (sXXP ps) (sYXP ps) (sXP ps) - p.xp))
        + vec6 0 1 0 0 0 0 m * (p.y * (p.x * genSolA ps (sXXP ps) (sYXP ps) (sXP ps)
            + p.y * genSolB ps (sXXP ps) (sYXP ps) (sXP ps)
            + genSolC ps (sXXP ps) (sYXP ps) (sXP ps) - p.xp))
        + vec6 0 0 1 0 0 0 m * (p.x * genSolA ps (sXXP ps) (sYXP ps) (sXP ps)
            + p.y * genSolB ps (sXXP ps) (sYXP ps) (sXP ps)
            + genSolC ps (sXXP ps) (sYXP ps) (sXP ps) - p.xp)
        + vec6 0 0 0 1 0 0 m * (p.x * (p.x * genSolA ps (sXYP ps) (sYYP ps) (sYP ps)
            + p.y * genSolB ps (sXYP ps) (sYYP ps) (sYP ps)
            + genSolC ps (sXYP ps) (sYYP ps) (sYP ps) - p.yp))
        + vec6 0 0 0 0 1 0 m * (p.y * (p.x * genSolA ps (sXYP ps) (sYYP ps) (sYP ps)
            + p.y * genSolB ps (sXYP ps) (sYYP ps) (sYP ps)
            + genSolC ps (sXYP ps) (sYYP ps) (sYP ps) - p.yp))
        + vec6 0 0 0 0 0 1 m * (p.x * genSolA ps (sXYP ps) (sYYP ps) (sYP ps)
            + p.y * genSolB ps (sXYP ps) (sYYP ps) (sYP ps)
            + genSolC ps (sXYP ps) (sYYP ps) (sYP ps) - p.yp))
      from funext fun p => by
        simp only [famUx, famUy, famTx, famTy]
        rw [vec6_decomp p.x p.y 1 0 0 0 m, vec6_decomp 0 0 0 p.x p.y 1 m]
        simp only [dot6, Fin.sum_univ_six, vec6_zero, vec6_one, vec6_two, vec6_three,
          vec6_four, vec6_five]
        ring]
    rw [lsum_six_smul, expandGenX0, expandGenX1, expandGenX2, expandGenY0, expandGenY1,
      expandGenY2]
    have hdet : (ps.map (fun p => p.x * p.x)).sum
          * ((ps.map (fun p => p.y * p.y)).sum * (ps.length : ℚ)
            - (ps.map (fun p => p.y)).sum * (ps.map (fun p => p.y)).sum)
        - (ps.map (fun p => p.x * p.y)).sum * ((ps.map (fun p => p.x * p.y)).sum
            * (ps.length : ℚ) - (ps.map (fun p => p.x)).sum * (ps.map (fun p => p.y)).sum)
        + (ps.map (fun p => p.x)).sum * ((ps.map (fun p => p.x * p.y)).sum
            * (ps.map (fun p => p.y)).sum
            - (ps.map (fun p => p.y * p.y)).sum * (ps.map (fun p => p.x)).sum) ≠ 0 := by
      simpa [genDet, sX, sY, sXX, sXY, sYY] using hc
    simp only [genSolA, genSolB, genSolC, genDet, sX, sY, sXX, sXY, sYY, sXP, sYP,
      sXXP, sYXP, sXYP, sYYP]
    field_simp
    ring

/-- Every family solver's output satisfies the family's normal equations. -/
theorem famSolve_normal (g : FitGeom) (ps : List PtPair) (θ : Fin 6 → ℚ)
    (h : famSolve g ps = some θ) (m : Fin 6) :
    (ps.map (fun p => famUx g p m * (dot6 (famUx g p) θ - famTx g p)
      + famUy g p m * (dot6 (famUy g p) θ - famTy g p))).sum = 0 := by
  cases g
  · exact shiftSolve_normal ps θ h m
  · exact rscaleSolve_normal ps θ h m
  · exact generalSolve_normal ps θ h m

/-- The squared residual of an embedded family member agrees with the
feature/target formulation of its linear model. -/
theorem resid2A_fam (g : FitGeom) (θ : Fin 6 → ℚ) (p : PtPair) :
    resid2A (famToAffine g θ) p
      = (dot6 (famUx g p) θ - famTx g p) ^ 2 + (dot6 (famUy g p) θ - famTy g p) ^ 2 := by
  cases g <;>
    (simp only [resid2A, famToAffine, famUx, famUy, famTx, famTy, dot6, Fin.sum_univ_six,
      vec6_zero, vec6_one, vec6_two, vec6_three, vec6_four, vec6_five]
     ring)

/-- Summing a function of the pair component over indexed pairs. -/
theorem lsum_map_snd (keep : List (Nat × PtPair)) (F : PtPair → ℚ) :
    (keep.map (fun ip => F ip.2)).sum = ((keep.map Prod.snd).map F).sum := by
  rw [List.map_map]
  rfl

/-- Refitting on the survivors is optimal within the family: the refit's mean
squared residual over the survivors is no larger than any family member's,
in particular the previous round's transform's. -/
theorem meanResid2_optimal (g : FitGeom) (keep : List (Nat × PtPair)) (θ θ' : Fin 6 → ℚ)
    (h : famSolve g (keep.map Prod.snd) = some θ) :
    meanResid2 (famToAffine g θ) keep ≤ meanResid2 (famToAffine g θ') keep := by
  unfold meanResid2 meanQ
  simp only [resid2A_fam, List.length_map]
  rcases Nat.eq_zero_or_pos keep.length with hz | hpos
  · rw [List.length_eq_zero.mp hz]
    simp
  · have hsum := lsq_optimal (famUx g) (famUy g) (famTx g) (famTy g)
      (keep.map Prod.snd) θ θ' (famSolve_normal g _ θ h)
    rw [← lsum_map_snd, ← lsum_map_snd] at hsum
    have hc : (0 : ℚ) < (keep.length : ℚ) := by exact_mod_cast hpos
    exact (div_le_div_iff_of_pos_right hc).mpr hsum

/-- Discarding the outliers of a clipping round never increases the mean
squared residual of the retained set under the current transform. -/
theorem clipSurvivors_mean_le (sigma : ℚ) (t : Affine2) (cur : List (Nat × PtPair))
    (hne : clipSurvivors sigma t cur ≠ []) :
    meanResid2 t (clipSurvivors sigma t cur) ≤ meanResid2 t cur := by
  have hq : (clipSurvivors sigma t cur).map (fun ip => resid2A t ip.2)
      = (cur.map (fun ip => resid2A t ip.2)).filter
          (keepPred (meanResid2 t cur) (sigma ^ 2 * clipVar t cur)) := by
    unfold clipSurvivors
    exact map_filter_comm cur (fun ip => resid2A t ip.2) _
  have hne' : (cur.map (fun ip => resid2A t ip.2)).filter
      (keepPred (meanResid2 t cur) (sigma ^ 2 * clipVar t cur)) ≠ [] := by
    intro hcontra
    have hmapnil : (clipSurvivors sigma t cur).map (fun ip => resid2A t ip.2) = [] := by
      rw [hq, hcontra]
    exact hne (List.map_eq_nil_iff.mp hmapnil)
  calc meanResid2 t (clipSurvivors sigma t cur)
      = meanQ ((cur.map (fun ip => resid2A t ip.2)).filter
          (keepPred (meanResid2 t cur) (sigma ^ 2 * clipVar t cur))) := by
        rw [meanResid2, hq]
    _ ≤ meanQ (cur.map (fun ip => resid2A t ip.2)) := keep_mean_le _ _ _ hne'
    _ = meanResid2 t cur := rfl

/-- The clipping loop performs at most its round budget, recording one mean
squared residual per accepted round. -/
theorem clipLoop_rounds (g : FitGeom) (sigma : ℚ) :
    ∀ (n : Nat) (cur : List (Nat × PtPair)) (t : Affine2),
      (clipLoop g sigma n cur t).nRounds ≤ n
      ∧ (clipLoop g sigma n cur t).rounds.length = (clipLoop g sigma n cur t).nRounds := by
  intro n
  induction n with
  | zero => intro cur t; exact ⟨Nat.le_refl _, rfl⟩
  | succ n ih =>
    intro cur t
    rw [clipLoop]
    by_cases h1 : (clipSurvivors sigma t cur).length = cur.length
    · rw [if_pos h1]; exact ⟨Nat.zero_le _, rfl⟩
    · rw [if_neg h1]
      by_cases h2 : (clipSurvivors sigma t cur).length < g.minPairs
      · rw [if_pos h2]; exact ⟨Nat.zero_le _, rfl⟩
      · rw [if_neg h2]
        rcases hs : famSolve g ((clipSurvivors sigma t cur).map Prod.snd) with _ | θ
        · exact ⟨Nat.zero_le _, rfl⟩
        · have := ih (clipSurvivors sigma t cur) (famToAffine g θ)
          exact ⟨Nat.succ_le_succ this.1, by simp [this.2]⟩

/-- Chain invariant of the clipping loop: starting from any family-member
transform, the mean squared residual of the current retained set, followed by
the per-round records, is non-increasing. -/
theorem clipLoop_chain (g : FitGeom) (sigma : ℚ) :
    ∀ (n : Nat) (cur : List (Nat × PtPair)) (t : Affine2), famMember g t →
      List.Chain' (fun a b => b ≤ a)
        (meanResid2 t cur :: (clipLoop g sigma n cur t).rounds) := by
  intro n
  induction n with
  | zero => intro cur t _; simp [clipLoop]
  | succ n ih =>
    intro cur t hmem
    rw [clipLoop]
    by_cases h1 : (clipSurvivors sigma t cur).length = cur.length
    · rw [if_pos h1]; simp
    · rw [if_neg h1]
      by_cases h2 : (clipSurvivors sigma t cur).length < g.minPairs
      · rw [if_pos h2]; simp
      · rw [if_neg h2]
        rcases hs : famSolve g ((clipSurvivors sigma t cur).map Prod.snd) with _ | θ
        · simp
        · have hne : clipSurvivors sigma t cur ≠ [] := by
            have hmin := minPairs_pos g
            have := Nat.le_of_not_lt h2
            exact List.length_pos.mp (by omega)
          show List.Chain' (fun a b => b ≤ a) (meanResid2 t cur ::
            meanResid2 (famToAffine g θ) (clipSurvivors sigma t cur) ::
            (clipLoop g sigma n (clipSurvivors sigma t cur) (famToAffine g θ)).rounds)
          rw [List.chain'_cons]
          constructor
          · obtain ⟨θold, rfl⟩ := hmem
            calc meanResid2 (famToAffine g θ) (clipSurvivors sigma (famToAffine g θold) cur)
                ≤ meanResid2 (famToAffine g θold)
                    (clipSurvivors sigma (famToAffine g θold) cur) :=
                  meanResid2_optimal g _ θ θold hs
              _ ≤ meanResid2 (famToAffine g θold) cur :=
                  clipSurvivors_mean_le sigma _ cur hne
          · exact ih _ _ ⟨θ, rfl⟩

/-- C4: monotonicity of sigma-clipping.  On every successful fit, the
recorded mean squared residual trace (`roundRms2`: the initial fit followed
by one record per accepted clipping round — equivalently the RMS trace, as
squaring is monotone) is non-increasing: no clipping round ever increases the
RMS residual of the retained set; and the number of rounds never exceeds
`nclip`. -/
theorem c4_clip_rms_monotone :
    ∀ (pairs : List PtPair) (g : FitGeom) (nclip : Nat) (sigma : ℚ) (r : FitResult),
      0 < nclip → fit pairs g nclip sigma = .ok r →
      List.Chain' (fun a b => b ≤ a) r.roundRms2
      ∧ r.nClipRounds ≤ nclip ∧ r.roundRms2.length = r.nClipRounds + 1 := by
  intro pairs g nclip sigma r _ h
  unfold fit at h
  by_cases hlen : pairs.length < g.minPairs
  · rw [if_pos hlen] at h
    exact absurd h (by simp)
  · rw [if_neg hlen] at h
    rcases hs : famSolve g pairs with _ | θ0 <;> rw [hs] at h
    · exact absurd h (by simp)
    · injection h with h
      subst h
      refine ⟨?_, ?_, ?_⟩
      · exact clipLoop_chain g sigma nclip ((List.range pairs.length).zip pairs)
          (famToAffine g θ0) ⟨θ0, rfl⟩
      · exact (clipLoop_rounds g sigma nclip ((List.range pairs.length).zip pairs)
          (famToAffine g θ0)).1
      · show (meanResid2 (famToAffine g θ0) ((List.range pairs.length).zip pairs)
          :: (clipLoop g sigma nclip ((List.range pairs.length).zip pairs)
            (famToAffine g θ0)).rounds).length = _ + 1
        simp [(clipLoop_rounds g sigma nclip ((List.range pairs.length).zip pairs)
          (famToAffine g θ0)).2]

/-- Witness for C4 at a concrete instance: the sample clipped fit's recorded
trace `[243/16, 0]` is non-increasing, with one round within the budget of
two. -/
theorem c4_clip_rms_monotone_witness :
    List.Chain' (fun a b => b ≤ a) fitResW2.roundRms2
    ∧ fitResW2.nClipRounds ≤ 2
    ∧ fitResW2.roundRms2.length = fitResW2.nClipRounds + 1 :=
  c4_clip_rms_monotone pairsW .shift 2 1 fitResW2 (by decide) fit_pairsW_eval
